import Mathlib

/-!
Verification of the streaming-response pipeline of the `glm-chat-provider`
editor extension.

The repository ships two revisions of the provider in `src/provider.ts`:
an earlier one (lines 1-305) and a refactored one (lines 307-807).  The
marker-splitting function `processThinkingContent` exists in both; the two
revisions differ only in that the earlier one (lines 23-83) leaves the
per-invocation loop (`break`) after retaining a partial marker suffix,
while the refactor (lines 450-480) falls through to the next loop
iteration with the retained suffix as the whole working buffer.

Strings are modelled as `List Char`.  JavaScript string primitives used by
the source (`indexOf`, `slice`, `endsWith`) are modelled by executable
functions on `List Char` below.
-/

abbrev Str := List Char

/-- Constant `THINK_OPEN = "<think>"` (provider.ts line 344 / line 16). -/
def openTag : Str := ['<', 't', 'h', 'i', 'n', 'k', '>']

/-- Constant `THINK_CLOSE = "</think>"` (provider.ts line 345 / line 17). -/
def closeTag : Str := ['<', '/', 't', 'h', 'i', 'n', 'k', '>']

/-- Constant `THINK_OPEN_MARKDOWN = "<details><summary>Thinking</summary>\n\n"`
(provider.ts line 346; inlined at line 57 of the earlier revision). -/
def openMd : Str :=
  ['<', 'd', 'e', 't', 'a', 'i', 'l', 's', '>',
   '<', 's', 'u', 'm', 'm', 'a', 'r', 'y', '>',
   'T', 'h', 'i', 'n', 'k', 'i', 'n', 'g',
   '<', '/', 's', 'u', 'm', 'm', 'a', 'r', 'y', '>', '\n', '\n']

/-- Constant `THINK_CLOSE_MARKDOWN = "\n\n</details>\n\n"`
(provider.ts line 347; inlined at line 35 of the earlier revision). -/
def closeMd : Str :=
  ['\n', '\n', '<', '/', 'd', 'e', 't', 'a', 'i', 'l', 's', '>', '\n', '\n']

/-- The marker sought by the splitter in the given mode:
`insideThinking ? THINK_CLOSE : THINK_OPEN` (provider.ts line 459;
the earlier revision spells the two modes out in separate branches,
lines 32-76). -/
def markerFor (inside : Bool) : Str := if inside then closeTag else openTag

/-- The decoration emitted when the sought marker is consumed. -/
def decoFor (inside : Bool) : Str := if inside then closeMd else openMd

/-- Function `appendThinkingSegment` (provider.ts lines 446-448): the pre-marker
segment followed by the decoration of the mode. -/
def appendThinkingSegment (segment : Str) (inside : Bool) : Str :=
  segment ++ decoFor inside

/-- JavaScript `haystack.indexOf(needle)` for strings: index of the
leftmost occurrence, `none` when there is no occurrence. -/
def indexOfSub (m : Str) : Str → Option Nat
  | [] => if m = [] then some 0 else none
  | c :: rest =>
    if (c :: rest).take m.length = m then some 0
    else (indexOfSub m rest).map (· + 1)

/-- Body of the downward scan of `getPartialSuffixLength` (provider.ts
lines 429-436): the greatest `i ≤ n` such that the buffer ends with the
first `i` characters of the marker, else `0`.  The upward scan of the
earlier revision (lines 39-44 and 61-66) keeps the last successful `i`,
which is the same greatest value; see `partialMatchV1_eq`. -/
def gpsAux (b m : Str) : Nat → Nat
  | 0 => 0
  | i + 1 =>
    if b.drop (b.length - (i + 1)) = m.take (i + 1) then i + 1
    else gpsAux b m i

/-- Function `getPartialSuffixLength(buffer, marker)` (provider.ts lines 429-436):
scans `i` from `min(buffer.length, marker.length - 1)` down to `1` and
returns the first `i` with `buffer.endsWith(marker.slice(0, i))`. -/
def getPartialSuffixLength (b m : Str) : Nat :=
  gpsAux b m (min b.length (m.length - 1))

/-- The `partialMatch` upward loop of the earlier revision (provider.ts
lines 39-44 and 61-66): `i` runs from `1` while
`i < marker.length && i <= buffer.length`, recording the last `i` whose
suffix test succeeds. -/
def partialMatchV1 (b m : Str) : Nat :=
  gpsAux b m (min (m.length - 1) b.length)

theorem partialMatchV1_eq (b m : Str) :
    partialMatchV1 b m = getPartialSuffixLength b m := by
  unfold partialMatchV1 getPartialSuffixLength
  rw [Nat.min_comm]

/-- One run of the `while (buffer.length > 0)` loop of the earlier
revision of `processThinkingContent` (provider.ts lines 31-77), with
fuel to make the recursion structural.  Per iteration: look for the
marker of the mode; if found, emit the pre-marker text and the decoration,
drop the marker and flip the mode; otherwise emit everything but the
longest buffer suffix that is a proper marker prefix, retain that
suffix, and stop (`break`).  `processLoopFuel_isSome` shows
`buffer.length + 1` fuel always suffices, so `processLoop` below is the
total function computed by the source loop. -/
def processLoopFuel : Nat → Str → Bool → Option (Str × Str × Bool)
  | 0, _, _ => none
  | _ + 1, [], inside => some ([], [], inside)
  | fuel + 1, c :: rest, inside =>
    let buffer := c :: rest
    let marker := markerFor inside
    match indexOfSub marker buffer with
    | some idx =>
      match processLoopFuel fuel (buffer.drop (idx + marker.length)) (!inside) with
      | some r => some (appendThinkingSegment (buffer.take idx) inside ++ r.1, r.2.1, r.2.2)
      | none => none
    | none =>
      let p := partialMatchV1 buffer marker
      some (buffer.take (buffer.length - p), buffer.drop (buffer.length - p), inside)

/-- The loop of the earlier-revision `processThinkingContent`
(provider.ts lines 31-77), as a total function: given the working buffer
and the mode flag it returns the emitted output, the retained buffer and
the final flag. -/
def processLoop (b : Str) (inside : Bool) : Str × Str × Bool :=
  (processLoopFuel (b.length + 1) b inside).getD ([], [], inside)

/-- Structure `ThinkingState` (provider.ts lines 11-14 / 331-334). -/
structure ThinkingState where
  buffer : Str
  insideThinking : Bool
  deriving DecidableEq

/-- Function `processThinkingContent` (provider.ts lines 23-83, the earlier,
terminating revision): prepend the carried buffer to the new fragment
and run the loop. -/
def processThinkingContent (content : Str) (state : ThinkingState) :
    Str × ThinkingState :=
  let r := processLoop (state.buffer ++ content) state.insideThinking
  (r.1, ⟨r.2.1, r.2.2⟩)

/-- The loop of the refactored `processThinkingContent` (provider.ts
lines 458-477), which after retaining a partial marker suffix does NOT
leave the loop but re-enters it with the retained suffix as the whole
buffer.  Fuel counts loop iterations; `none` means the iteration budget
was exhausted.  A result that is `none` for every fuel is a
non-terminating run of the source loop. -/
def processLoopR2 : Nat → Str → Bool → Option (Str × Str × Bool)
  | 0, _, _ => none
  | _ + 1, [], inside => some ([], [], inside)
  | fuel + 1, c :: rest, inside =>
    let buffer := c :: rest
    let marker := markerFor inside
    match indexOfSub marker buffer with
    | some idx =>
      (processLoopR2 fuel (buffer.drop (idx + marker.length)) (!inside)).map
        (fun r => (appendThinkingSegment (buffer.take idx) inside ++ r.1, r.2.1, r.2.2))
    | none =>
      let p := getPartialSuffixLength buffer marker
      if p = 0 then
        (processLoopR2 fuel [] inside).map (fun r => (buffer ++ r.1, r.2.1, r.2.2))
      else
        (processLoopR2 fuel (buffer.drop (buffer.length - p)) inside).map
          (fun r => (buffer.take (buffer.length - p) ++ r.1, r.2.1, r.2.2))

/-- Function `processThinkingContent` of the refactored revision (provider.ts
lines 450-480), with an iteration budget. -/
def processThinkingContentR2 (fuel : Nat) (content : Str) (state : ThinkingState) :
    Option (Str × ThinkingState) :=
  (processLoopR2 fuel (state.buffer ++ content) state.insideThinking).map
    (fun r => (r.1, ⟨r.2.1, r.2.2⟩))

/-- Feeding a sequence of fragments through `processThinkingContent`,
collecting the emitted output of each invocation (the provider does this once
per content delta, lines 138-144 / 589-603). -/
def feedFragments : List Str → ThinkingState → List Str × ThinkingState
  | [], st => ([], st)
  | c :: cs, st =>
    let r := processThinkingContent c st
    let rest := feedFragments cs r.2
    (r.1 :: rest.1, rest.2)

/-! ### Occurrence bookkeeping for the split/compose lemma -/

/-- The pattern `m` occurs in `s` at position `i`. -/
def occAt (m s : Str) (i : Nat) : Prop :=
  i + m.length ≤ s.length ∧ (s.drop i).take m.length = m

theorem occAt_zero_iff {m s : Str} : occAt m s 0 ↔ s.take m.length = m := by
  constructor
  · rintro ⟨_, h2⟩
    simpa using h2
  · intro h
    have hl : min m.length s.length = m.length := by
      have := congrArg List.length h
      simpa [List.length_take] using this
    refine ⟨?_, by simpa using h⟩
    have : min m.length s.length ≤ s.length := Nat.min_le_right _ _
    omega

theorem occAt_succ_cons {m s : Str} {c : Char} {i : Nat} :
    occAt m (c :: s) (i + 1) ↔ occAt m s i := by
  unfold occAt
  rw [List.drop_succ_cons, List.length_cons]
  constructor
  · rintro ⟨h1, h2⟩
    exact ⟨by omega, h2⟩
  · rintro ⟨h1, h2⟩
    exact ⟨by omega, h2⟩

theorem indexOfSub_eq_none_iff (m s : Str) :
    indexOfSub m s = none ↔ ∀ i, ¬ occAt m s i := by
  induction s with
  | nil =>
    by_cases hm : m = []
    · subst hm
      simp [indexOfSub]
      exact ⟨0, by simp [occAt]⟩
    · refine iff_of_true (by simp [indexOfSub, hm]) ?_
      rintro i ⟨h1, h2⟩
      simp only [List.length_nil, Nat.le_zero] at h1
      exact hm (List.eq_nil_of_length_eq_zero (by omega))
  | cons c rest ih =>
    by_cases hc : (c :: rest).take m.length = m
    · simp [indexOfSub, hc]
      exact ⟨0, occAt_zero_iff.mpr hc⟩
    · simp only [indexOfSub, if_neg hc, Option.map_eq_none', ih]
      constructor
      · intro h i
        cases i with
        | zero => rw [occAt_zero_iff]; exact hc
        | succ j => rw [occAt_succ_cons]; exact h j
      · intro h i
        have := h (i + 1)
        rwa [occAt_succ_cons] at this

theorem indexOfSub_some_occAt {m s : Str} {i : Nat}
    (h : indexOfSub m s = some i) : occAt m s i := by
  induction s generalizing i with
  | nil =>
    by_cases hm : m = [] <;> simp [indexOfSub, hm] at h
    subst hm; subst h
    exact ⟨by simp, by simp⟩
  | cons c rest ih =>
    by_cases hc : (c :: rest).take m.length = m
    · simp [indexOfSub, hc] at h
      subst h
      exact occAt_zero_iff.mpr hc
    · simp only [indexOfSub, if_neg hc, Option.map_eq_some'] at h
      obtain ⟨j, hj, rfl⟩ := h
      exact occAt_succ_cons.mpr (ih hj)

theorem indexOfSub_some_min {m s : Str} {i : Nat}
    (h : indexOfSub m s = some i) : ∀ j, j < i → ¬ occAt m s j := by
  induction s generalizing i with
  | nil =>
    by_cases hm : m = [] <;> simp [indexOfSub, hm] at h
    subst h
    omega
  | cons c rest ih =>
    by_cases hc : (c :: rest).take m.length = m
    · simp [indexOfSub, hc] at h
      omega
    · simp only [indexOfSub, if_neg hc, Option.map_eq_some'] at h
      obtain ⟨j', hj', rfl⟩ := h
      intro j hj
      cases j with
      | zero => rw [occAt_zero_iff]; exact hc
      | succ k =>
        rw [occAt_succ_cons]
        exact ih hj' k (by omega)

theorem indexOfSub_append_some {m t u : Str} {i : Nat}
    (h : indexOfSub m t = some i) : indexOfSub m (t ++ u) = some i := by
  induction t generalizing i with
  | nil =>
    by_cases hm : m = [] <;> simp [indexOfSub, hm] at h
    subst hm; subst h
    cases u with
    | nil => simp [indexOfSub]
    | cons d v => simp [indexOfSub]
  | cons c rest ih =>
    have hocc := indexOfSub_some_occAt h
    have hfit : m.length ≤ (c :: rest).length := by
      have := hocc.1
      omega
    have htake : ((c :: rest) ++ u).take m.length = (c :: rest).take m.length :=
      List.take_append_of_le_length hfit
    by_cases hc : (c :: rest).take m.length = m
    · simp [indexOfSub, hc] at h
      subst h
      rw [List.cons_append, indexOfSub]
      rw [← List.cons_append, htake, if_pos hc]
    · simp only [indexOfSub, if_neg hc, Option.map_eq_some'] at h
      obtain ⟨j, hj, rfl⟩ := h
      rw [List.cons_append, indexOfSub]
      rw [← List.cons_append, htake, if_neg hc, ih hj]
      rfl

/-! ### Properties of the partial-suffix scan -/

theorem gpsAux_le (b m : Str) : ∀ n, gpsAux b m n ≤ n := by
  intro n
  induction n with
  | zero => simp [gpsAux]
  | succ k ih =>
    unfold gpsAux
    split
    · exact le_refl _
    · omega

theorem gpsAux_sfx (b m : Str) (n : Nat) (h : 0 < gpsAux b m n) :
    b.drop (b.length - gpsAux b m n) = m.take (gpsAux b m n) := by
  induction n with
  | zero => simp [gpsAux] at h
  | succ k ih =>
    unfold gpsAux at h ⊢
    by_cases hcond : b.drop (b.length - (k + 1)) = m.take (k + 1)
    · rw [if_pos hcond]
      exact hcond
    · rw [if_neg hcond] at h ⊢
      exact ih h

theorem gpsAux_max (b m : Str) (n : Nat) :
    ∀ j, gpsAux b m n < j → j ≤ n → b.drop (b.length - j) ≠ m.take j := by
  induction n with
  | zero => omega
  | succ k ih =>
    intro j h1 h2
    unfold gpsAux at h1
    by_cases hcond : b.drop (b.length - (k + 1)) = m.take (k + 1)
    · rw [if_pos hcond] at h1
      omega
    · rw [if_neg hcond] at h1
      by_cases hjk : j = k + 1
      · subst hjk; exact hcond
      · exact ih j h1 (by omega)

theorem gps_le_len (b m : Str) : getPartialSuffixLength b m ≤ b.length :=
  le_trans (gpsAux_le b m _) (Nat.min_le_left _ _)

theorem gps_le_marker (b m : Str) : getPartialSuffixLength b m ≤ m.length - 1 :=
  le_trans (gpsAux_le b m _) (Nat.min_le_right _ _)

theorem gps_sfx (b m : Str) (h : 0 < getPartialSuffixLength b m) :
    b.drop (b.length - getPartialSuffixLength b m) =
      m.take (getPartialSuffixLength b m) :=
  gpsAux_sfx b m _ h

/-! ### The V1 loop is total: fuel lemmas and step equations -/

theorem markerFor_ne_nil (inside : Bool) : markerFor inside ≠ [] := by
  cases inside <;> decide

theorem markerFor_length_pos (inside : Bool) : 0 < (markerFor inside).length := by
  cases inside <;> decide

theorem processLoopFuel_mono : ∀ {f1 f2 : Nat} {b : Str} {inside : Bool}
    {r : Str × Str × Bool}, f1 ≤ f2 →
    processLoopFuel f1 b inside = some r → processLoopFuel f2 b inside = some r := by
  intro f1
  induction f1 with
  | zero =>
    intro f2 b inside r _ h
    simp [processLoopFuel] at h
  | succ k ih =>
    intro f2 b inside r hle h
    obtain ⟨g, rfl⟩ : ∃ g, f2 = g + 1 := ⟨f2 - 1, by omega⟩
    cases b with
    | nil => simpa [processLoopFuel] using h
    | cons c rest =>
      simp only [processLoopFuel] at h ⊢
      cases hidx : indexOfSub (markerFor inside) (c :: rest) with
      | some idx =>
        rw [hidx] at h
        dsimp only at h ⊢
        cases hrec : processLoopFuel k
            ((c :: rest).drop (idx + (markerFor inside).length)) (!inside) with
        | none => rw [hrec] at h; simp at h
        | some r' =>
          rw [hrec] at h
          rw [ih (by omega) hrec]
          dsimp only at h ⊢
          exact h
      | none =>
        rw [hidx] at h
        dsimp only at h ⊢
        exact h

theorem processLoopFuel_isSome : ∀ (fuel : Nat) (b : Str) (inside : Bool),
    b.length < fuel → ∃ r, processLoopFuel fuel b inside = some r := by
  intro fuel
  induction fuel with
  | zero => intro b inside h; omega
  | succ k ih =>
    intro b inside h
    cases b with
    | nil => exact ⟨([], [], inside), rfl⟩
    | cons c rest =>
      simp only [processLoopFuel]
      cases hidx : indexOfSub (markerFor inside) (c :: rest) with
      | some idx =>
        dsimp only
        have hm := markerFor_length_pos inside
        have hlen : ((c :: rest).drop (idx + (markerFor inside).length)).length < k := by
          rw [List.length_drop]
          simp only [List.length_cons] at h ⊢
          omega
        obtain ⟨r, hr⟩ := ih _ (!inside) hlen
        rw [hr]
        exact ⟨_, rfl⟩
      | none =>
        exact ⟨_, rfl⟩

theorem processLoopFuel_processLoop (fuel : Nat) {b : Str} {inside : Bool}
    {r : Str × Str × Bool} (h : processLoopFuel fuel b inside = some r) :
    processLoop b inside = r := by
  obtain ⟨r', hr'⟩ := processLoopFuel_isSome (b.length + 1) b inside (by omega)
  have h1 := processLoopFuel_mono (Nat.le_max_left fuel (b.length + 1)) h
  have h2 := processLoopFuel_mono (Nat.le_max_right fuel (b.length + 1)) hr'
  rw [h1] at h2
  unfold processLoop
  rw [hr']
  simpa using h2.symm

theorem processLoop_nil (inside : Bool) : processLoop [] inside = ([], [], inside) := rfl

theorem processLoop_found {b : Str} {inside : Bool} {idx : Nat}
    (h : indexOfSub (markerFor inside) b = some idx) :
    processLoop b inside =
      (appendThinkingSegment (b.take idx) inside ++
         (processLoop (b.drop (idx + (markerFor inside).length)) (!inside)).1,
       (processLoop (b.drop (idx + (markerFor inside).length)) (!inside)).2.1,
       (processLoop (b.drop (idx + (markerFor inside).length)) (!inside)).2.2) := by
  cases b with
  | nil =>
    exfalso
    by_cases hm : markerFor inside = []
    · exact markerFor_ne_nil inside hm
    · simp [indexOfSub, hm] at h
  | cons c rest =>
    have hm := markerFor_length_pos inside
    obtain ⟨r, hr⟩ := processLoopFuel_isSome
      (((c :: rest).drop (idx + (markerFor inside).length)).length + 1)
      ((c :: rest).drop (idx + (markerFor inside).length)) (!inside) (by omega)
    have hrL := processLoopFuel_processLoop _ hr
    have hr2 : processLoopFuel ((c :: rest).length)
        ((c :: rest).drop (idx + (markerFor inside).length)) (!inside) = some r := by
      refine processLoopFuel_mono ?_ hr
      rw [List.length_drop]
      simp only [List.length_cons]
      omega
    apply processLoopFuel_processLoop ((c :: rest).length + 1)
    simp only [processLoopFuel]
    rw [h]
    dsimp only
    rw [hr2, hrL]

theorem processLoop_none {b : Str} {inside : Bool}
    (h : indexOfSub (markerFor inside) b = none) :
    processLoop b inside =
      (b.take (b.length - getPartialSuffixLength b (markerFor inside)),
       b.drop (b.length - getPartialSuffixLength b (markerFor inside)), inside) := by
  cases b with
  | nil => simp [processLoop_nil, getPartialSuffixLength, gpsAux]
  | cons c rest =>
    apply processLoopFuel_processLoop ((c :: rest).length + 1)
    simp only [processLoopFuel]
    rw [h]
    dsimp only
    rw [partialMatchV1_eq]

/-- Maximality of `getPartialSuffixLength`: any longer proper marker
prefix is not a suffix of the buffer (lengths beyond the buffer cannot
match at all). -/
theorem gps_max (b m : Str) :
    ∀ j, getPartialSuffixLength b m < j → j ≤ m.length - 1 →
      b.drop (b.length - j) ≠ m.take j := by
  intro j h1 h2
  by_cases hj : j ≤ b.length
  · exact gpsAux_max b m _ j h1 (le_min hj h2)
  · intro heq
    have hlt : b.length < j := by omega
    have hm0 : m ≠ [] := by
      intro hm
      subst hm
      simp at h2
      omega
    have hjm : j ≤ m.length := by
      have : 1 ≤ m.length := List.length_pos.mpr hm0
      omega
    have := congrArg List.length heq
    rw [List.length_drop, List.length_take] at this
    have hmin : min j m.length = j := Nat.min_eq_left hjm
    omega

/-! ### Transfer of occurrences across appends -/

theorem occAt_append_left {m t u : Str} {q : Nat} (h : occAt m t q) :
    occAt m (t ++ u) q := by
  obtain ⟨h1, h2⟩ := h
  refine ⟨by rw [List.length_append]; omega, ?_⟩
  rw [List.drop_append_eq_append_drop, Nat.sub_eq_zero_of_le (by omega),
    List.drop_zero, List.take_append_of_le_length (by rw [List.length_drop]; omega)]
  exact h2

theorem occAt_of_append_left {m t u : Str} {q : Nat}
    (hfit : q + m.length ≤ t.length) (h : occAt m (t ++ u) q) : occAt m t q := by
  obtain ⟨_, h2⟩ := h
  refine ⟨hfit, ?_⟩
  rw [List.drop_append_eq_append_drop, Nat.sub_eq_zero_of_le (by omega),
    List.drop_zero, List.take_append_of_le_length (by rw [List.length_drop]; omega)] at h2
  exact h2

/-- Shifting `indexOfSub` across a prefix that is known to contain no
occurrence (not even one straddling into the right part). -/
theorem indexOfSub_append_shift : ∀ (X : Str) (v m : Str),
    (∀ q, q < X.length → ¬ occAt m (X ++ v) q) →
    indexOfSub m (X ++ v) = (indexOfSub m v).map (· + X.length) := by
  intro X
  induction X with
  | nil =>
    intro v m _
    simp only [List.nil_append, List.length_nil]
    cases indexOfSub m v <;> simp
  | cons c X' ih =>
    intro v m hq
    have h0 : ¬ occAt m ((c :: X') ++ v) 0 := hq 0 (by simp)
    have hc : ¬ ((c :: (X' ++ v)).take m.length = m) := by
      intro hh
      exact h0 (occAt_zero_iff.mpr (by simpa using hh))
    rw [List.cons_append, indexOfSub, if_neg hc]
    have ih' := ih v m (fun q hqlt hocc => by
      refine hq (q + 1) (by simp only [List.length_cons]; omega) ?_
      rw [List.cons_append]
      exact occAt_succ_cons.mpr hocc)
    rw [ih']
    cases indexOfSub m v with
    | none => simp
    | some j =>
      simp only [Option.map_some', List.length_cons, Option.some.injEq]
      omega

/-- If the marker does not occur in `t` at all, then in `t ++ u` it cannot
occur before the position where the retained partial suffix starts. -/
theorem occAt_before_partial {t u m : Str} (hnone : indexOfSub m t = none) :
    ∀ q, q < t.length - getPartialSuffixLength t m → ¬ occAt m (t ++ u) q := by
  intro q hq hocc
  by_cases hfit : q + m.length ≤ t.length
  · exact (indexOfSub_eq_none_iff m t).mp hnone q (occAt_of_append_left hfit hocc)
  · have hqt : q ≤ t.length := by omega
    have hk1 : getPartialSuffixLength t m < t.length - q := by omega
    have hk2 : t.length - q ≤ m.length - 1 := by omega
    apply gps_max t m (t.length - q) hk1 hk2
    have hdq : t.length - (t.length - q) = q := by omega
    rw [hdq]
    obtain ⟨hb, h2⟩ := hocc
    rw [List.drop_append_eq_append_drop, Nat.sub_eq_zero_of_le hqt,
      List.drop_zero] at h2
    have hkm : t.length - q ≤ m.length := by omega
    have h3 : ((t.drop q ++ u).take m.length).take (t.length - q) =
        m.take (t.length - q) := by rw [h2]
    rw [List.take_take, Nat.min_eq_left hkm] at h3
    rw [List.take_append_of_le_length (by rw [List.length_drop])] at h3
    rw [List.take_all_of_le (by rw [List.length_drop])] at h3
    exact h3

/-- Value `getPartialSuffixLength` is the unique `k` in range that is a suffix
of the buffer and a marker prefix, with nothing longer qualifying. -/
theorem gps_unique {b m : Str} {k : Nat} (hk : k ≤ min b.length (m.length - 1))
    (hsfx : b.drop (b.length - k) = m.take k)
    (hmax : ∀ j, k < j → j ≤ m.length - 1 → b.drop (b.length - j) ≠ m.take j) :
    getPartialSuffixLength b m = k := by
  rcases lt_trichotomy (getPartialSuffixLength b m) k with h | h | h
  · exact absurd hsfx (gpsAux_max b m _ k h hk)
  · exact h
  · exact absurd (gps_sfx b m (by omega)) (hmax _ h (gps_le_marker b m))

/-- If the marker does not occur in `t`, replacing the emitted part of `t`
is invisible to the partial-suffix scan: `t ++ u` and
`retained-suffix ++ u` have the same partial-suffix length. -/
theorem drop_append_left (X Y : Str) (n : Nat) :
    (X ++ Y).drop (X.length + n) = Y.drop n := by
  rw [List.drop_append_eq_append_drop]
  rw [List.drop_eq_nil_iff.mpr (Nat.le_add_right _ _), List.nil_append]
  congr 1
  omega

theorem take_append_left (X Y : Str) (n : Nat) :
    (X ++ Y).take (X.length + n) = X ++ Y.take n := by
  rw [List.take_append_eq_append_take]
  rw [List.take_of_length_le (Nat.le_add_right _ _)]
  have harith : X.length + n - X.length = n := by omega
  rw [harith]

theorem gps_append_drop {t u m : Str} (hnone : indexOfSub m t = none) :
    getPartialSuffixLength (t ++ u) m =
      getPartialSuffixLength
        (t.drop (t.length - getPartialSuffixLength t m) ++ u) m := by
  have hple : getPartialSuffixLength t m ≤ t.length := gps_le_len t m
  set p := getPartialSuffixLength t m with hp
  set v := t.drop (t.length - p) with hv
  have hvlen : v.length = p := by rw [hv, List.length_drop]; omega
  have hXlen : (t.take (t.length - p)).length = t.length - p := by
    rw [List.length_take]
    omega
  have hsplit : t ++ u = t.take (t.length - p) ++ (v ++ u) := by
    rw [hv, ← List.append_assoc, List.take_append_drop]
  have hdropEq : ∀ j, j ≤ v.length + u.length →
      (t ++ u).drop ((t ++ u).length - j) = (v ++ u).drop ((v ++ u).length - j) := by
    intro j hj
    have hlen3 : (t ++ u).length - j =
        (t.take (t.length - p)).length + ((v ++ u).length - j) := by
      rw [hXlen, List.length_append, List.length_append, hvlen]
      omega
    rw [hlen3]
    conv_lhs => rw [hsplit]
    exact drop_append_left _ _ _
  set q := getPartialSuffixLength (v ++ u) m with hq
  have hqle : q ≤ v.length + u.length := by
    have := gps_le_len (v ++ u) m
    rwa [List.length_append] at this
  have hqm : q ≤ m.length - 1 := gps_le_marker (v ++ u) m
  apply gps_unique
  · refine le_min ?_ hqm
    rw [List.length_append]
    omega
  · rw [hdropEq q hqle]
    by_cases hq0 : q = 0
    · rw [hq0]
      simp only [List.take_zero, Nat.sub_zero, List.drop_length]
    · have hsfx := gps_sfx (v ++ u) m (by omega)
      rw [← hq] at hsfx
      exact hsfx
  · intro j hj1 hj2 heq
    by_cases hjb : j ≤ v.length + u.length
    · rw [hdropEq j hjb] at heq
      exact gps_max (v ++ u) m j (by rw [← hq]; omega) hj2 heq
    · by_cases hjt : j ≤ t.length + u.length
      · have hju : u.length < j := by omega
        have hnlt : (t ++ u).length - j ≤ t.length := by
          rw [List.length_append]
          omega
        rw [List.drop_append_eq_append_drop, Nat.sub_eq_zero_of_le hnlt,
          List.drop_zero] at heq
        have hdl : (t.drop ((t ++ u).length - j)).length = j - u.length := by
          rw [List.length_drop, List.length_append]
          omega
        have h3 : ((t.drop ((t ++ u).length - j) ++ u).take (j - u.length)) =
            (m.take j).take (j - u.length) := by rw [heq]
        rw [List.take_append_of_le_length (by rw [hdl]),
          List.take_of_length_le (by rw [hdl]), List.take_take,
          Nat.min_eq_left (by omega)] at h3
        apply gps_max t m (j - u.length) (by omega) (by omega)
        have harith : t.length - (j - u.length) = (t ++ u).length - j := by
          rw [List.length_append]
          omega
        rw [harith]
        exact h3
      · have h0 : (t ++ u).length - j = 0 := by
          rw [List.length_append]
          omega
        rw [h0, List.drop_zero] at heq
        have hlen := congrArg List.length heq
        rw [List.length_take, List.length_append] at hlen
        have hjm : j ≤ m.length := by omega
        rw [Nat.min_eq_left hjm] at hlen
        omega

/-- If no marker occurrence starts inside `X` (not even straddling into
`w`) and the partial-suffix scan agrees, the loop on `X ++ w` just emits
`X` in front of what the loop on `w` does. -/
theorem processLoop_prepend {X w : Str} {flag : Bool}
    (hq : ∀ q, q < X.length → ¬ occAt (markerFor flag) (X ++ w) q)
    (hg : indexOfSub (markerFor flag) w = none →
      getPartialSuffixLength (X ++ w) (markerFor flag) =
        getPartialSuffixLength w (markerFor flag)) :
    processLoop (X ++ w) flag =
      (X ++ (processLoop w flag).1, (processLoop w flag).2) := by
  have hshift := indexOfSub_append_shift X w (markerFor flag) hq
  cases hidxw : indexOfSub (markerFor flag) w with
  | some j =>
    rw [hidxw] at hshift
    simp only [Option.map_some'] at hshift
    rw [processLoop_found hshift, processLoop_found hidxw]
    have htake : (X ++ w).take (j + X.length) = X ++ w.take j := by
      rw [Nat.add_comm]
      exact take_append_left X w j
    have hdrop : (X ++ w).drop (j + X.length + (markerFor flag).length) =
        w.drop (j + (markerFor flag).length) := by
      have harith : j + X.length + (markerFor flag).length =
          X.length + (j + (markerFor flag).length) := by omega
      rw [harith]
      exact drop_append_left X w _
    rw [htake, hdrop]
    simp [appendThinkingSegment, List.append_assoc]
  | none =>
    rw [hidxw] at hshift
    simp only [Option.map_none'] at hshift
    rw [processLoop_none hshift, processLoop_none hidxw, hg hidxw]
    have hple := gps_le_len w (markerFor flag)
    have htake : (X ++ w).take
        ((X ++ w).length - getPartialSuffixLength w (markerFor flag)) =
        X ++ w.take (w.length - getPartialSuffixLength w (markerFor flag)) := by
      have harith : (X ++ w).length - getPartialSuffixLength w (markerFor flag) =
          X.length + (w.length - getPartialSuffixLength w (markerFor flag)) := by
        rw [List.length_append]
        omega
      rw [harith]
      exact take_append_left X w _
    have hdrop : (X ++ w).drop
        ((X ++ w).length - getPartialSuffixLength w (markerFor flag)) =
        w.drop (w.length - getPartialSuffixLength w (markerFor flag)) := by
      have harith : (X ++ w).length - getPartialSuffixLength w (markerFor flag) =
          X.length + (w.length - getPartialSuffixLength w (markerFor flag)) := by
        rw [List.length_append]
        omega
      rw [harith]
      exact drop_append_left X w _
    rw [htake, hdrop]

/-- The split/compose law for the V1 loop: running the loop on `t ++ u`
is running it on `t`, then running it on the retained buffer followed by
`u`, concatenating the emitted outputs. -/
theorem processLoop_append : ∀ (n : Nat) (t u : Str) (flag : Bool), t.length ≤ n →
    processLoop (t ++ u) flag =
      ((processLoop t flag).1 ++
         (processLoop ((processLoop t flag).2.1 ++ u) ((processLoop t flag).2.2)).1,
       (processLoop ((processLoop t flag).2.1 ++ u) ((processLoop t flag).2.2)).2) := by
  intro n
  induction n with
  | zero =>
    intro t u flag ht
    have ht0 : t = [] := List.eq_nil_of_length_eq_zero (by omega)
    subst ht0
    rw [processLoop_nil]
    simp
  | succ n ih =>
    intro t u flag ht
    cases hidx : indexOfSub (markerFor flag) t with
    | some idx =>
      have hocc := indexOfSub_some_occAt hidx
      have hfit : idx + (markerFor flag).length ≤ t.length := hocc.1
      have hmpos := markerFor_length_pos flag
      have hidx2 : indexOfSub (markerFor flag) (t ++ u) = some idx :=
        indexOfSub_append_some hidx
      rw [processLoop_found hidx2, processLoop_found hidx]
      have htake : (t ++ u).take idx = t.take idx :=
        List.take_append_of_le_length (by omega)
      have hdrop : (t ++ u).drop (idx + (markerFor flag).length) =
          t.drop (idx + (markerFor flag).length) ++ u := by
        rw [List.drop_append_eq_append_drop, Nat.sub_eq_zero_of_le hfit,
          List.drop_zero]
      rw [htake, hdrop]
      have ih' := ih (t.drop (idx + (markerFor flag).length)) u (!flag)
        (by rw [List.length_drop]; omega)
      rw [ih']
      dsimp only
      simp [List.append_assoc]
    | none =>
      rw [processLoop_none hidx]
      dsimp only
      have hple := gps_le_len t (markerFor flag)
      have hsplit : t ++ u =
          t.take (t.length - getPartialSuffixLength t (markerFor flag)) ++
            (t.drop (t.length - getPartialSuffixLength t (markerFor flag)) ++ u) := by
        rw [← List.append_assoc, List.take_append_drop]
      have hXlen :
          (t.take (t.length - getPartialSuffixLength t (markerFor flag))).length =
            t.length - getPartialSuffixLength t (markerFor flag) := by
        rw [List.length_take]
        omega
      have hqocc : ∀ q,
          q < (t.take (t.length - getPartialSuffixLength t (markerFor flag))).length →
          ¬ occAt (markerFor flag)
            (t.take (t.length - getPartialSuffixLength t (markerFor flag)) ++
              (t.drop (t.length - getPartialSuffixLength t (markerFor flag)) ++ u)) q := by
        intro q hq
        rw [← hsplit]
        apply occAt_before_partial hidx
        rw [hXlen] at hq
        exact hq
      have hg : indexOfSub (markerFor flag)
            (t.drop (t.length - getPartialSuffixLength t (markerFor flag)) ++ u) = none →
          getPartialSuffixLength
            (t.take (t.length - getPartialSuffixLength t (markerFor flag)) ++
              (t.drop (t.length - getPartialSuffixLength t (markerFor flag)) ++ u))
            (markerFor flag) =
          getPartialSuffixLength
            (t.drop (t.length - getPartialSuffixLength t (markerFor flag)) ++ u)
            (markerFor flag) := by
        intro _
        have h := gps_append_drop (u := u) hidx
        rwa [hsplit] at h
      have hpre := processLoop_prepend hqocc hg
      rw [hsplit, hpre]

/-- Feeding fragments one at a time is the same as running the loop on
their concatenation: outputs concatenate, and the final carried state is
the single-shot state. -/
theorem feedFragments_spec : ∀ (cs : List Str) (t : Str) (flag : Bool),
    (processLoop t flag).1 ++
        ((feedFragments cs
          ⟨(processLoop t flag).2.1, (processLoop t flag).2.2⟩).1).join =
      (processLoop (t ++ cs.join) flag).1 ∧
    (feedFragments cs ⟨(processLoop t flag).2.1, (processLoop t flag).2.2⟩).2 =
      ⟨(processLoop (t ++ cs.join) flag).2.1,
       (processLoop (t ++ cs.join) flag).2.2⟩ := by
  intro cs
  induction cs with
  | nil =>
    intro t flag
    simp [feedFragments]
  | cons c cs ih =>
    intro t flag
    have hM := processLoop_append t.length t c flag (le_refl _)
    have e1 : (processLoop (t ++ c) flag).1 =
        (processLoop t flag).1 ++
          (processLoop ((processLoop t flag).2.1 ++ c) ((processLoop t flag).2.2)).1 := by
      rw [hM]
    have e2 : (processLoop (t ++ c) flag).2.1 =
        (processLoop ((processLoop t flag).2.1 ++ c) ((processLoop t flag).2.2)).2.1 := by
      rw [hM]
    have e3 : (processLoop (t ++ c) flag).2.2 =
        (processLoop ((processLoop t flag).2.1 ++ c) ((processLoop t flag).2.2)).2.2 := by
      rw [hM]
    obtain ⟨ih1, ih2⟩ := ih (t ++ c) flag
    rw [e1, e2, e3] at ih1
    rw [e2, e3] at ih2
    simp only [feedFragments, processThinkingContent, List.join_cons]
    constructor
    · rw [← List.append_assoc t c cs.join, ← ih1]
      simp [List.append_assoc]
    · rw [← List.append_assoc t c cs.join, ← ih2]

/-- Specialisation of `feedFragments_spec` to the initial state of a
response (empty buffer, outside a reasoning block). -/
theorem feedFragments_join_eq (cs : List Str) :
    ((feedFragments cs ⟨[], false⟩).1).join = (processLoop cs.join false).1 ∧
    (feedFragments cs ⟨[], false⟩).2 =
      ⟨(processLoop cs.join false).2.1, (processLoop cs.join false).2.2⟩ := by
  have h := feedFragments_spec cs [] false
  rw [processLoop_nil] at h
  simpa using h

/-- Reference transform for the conservation claim: repeatedly replace
the leftmost occurrence of the sought marker (close marker while inside
a reasoning block, open marker while outside) by its decoration,
flipping the mode; all other characters are passed through unchanged. -/
def replaceAltFuel : Nat → Str → Bool → Str
  | 0, t, _ => t
  | fuel + 1, t, flag =>
    match indexOfSub (markerFor flag) t with
    | some i =>
      t.take i ++ decoFor flag ++
        replaceAltFuel fuel (t.drop (i + (markerFor flag).length)) (!flag)
    | none => t

def replaceAlt (t : Str) (flag : Bool) : Str := replaceAltFuel (t.length + 1) t flag

theorem replaceAltFuel_congr : ∀ (f1 f2 : Nat) (t : Str) (flag : Bool),
    t.length < f1 → t.length < f2 →
    replaceAltFuel f1 t flag = replaceAltFuel f2 t flag := by
  intro f1
  induction f1 with
  | zero => intro f2 t flag h1 _; omega
  | succ k ih =>
    intro f2 t flag h1 h2
    obtain ⟨g, rfl⟩ : ∃ g, f2 = g + 1 := ⟨f2 - 1, by omega⟩
    simp only [replaceAltFuel]
    cases hidx : indexOfSub (markerFor flag) t with
    | some i =>
      have hocc := indexOfSub_some_occAt hidx
      have hmpos := markerFor_length_pos flag
      have hlt : (t.drop (i + (markerFor flag).length)).length < t.length := by
        rw [List.length_drop]
        have := hocc.1
        omega
      dsimp only
      rw [ih g (t.drop (i + (markerFor flag).length)) (!flag) (by omega) (by omega)]
    | none => rfl

theorem replaceAlt_none {t : Str} {flag : Bool}
    (h : indexOfSub (markerFor flag) t = none) : replaceAlt t flag = t := by
  unfold replaceAlt
  simp only [replaceAltFuel]
  rw [h]

theorem replaceAlt_found {t : Str} {flag : Bool} {i : Nat}
    (h : indexOfSub (markerFor flag) t = some i) :
    replaceAlt t flag =
      t.take i ++ decoFor flag ++
        replaceAlt (t.drop (i + (markerFor flag).length)) (!flag) := by
  have hocc := indexOfSub_some_occAt h
  have hmpos := markerFor_length_pos flag
  have hlt : (t.drop (i + (markerFor flag).length)).length < t.length := by
    rw [List.length_drop]
    have := hocc.1
    omega
  have hstep : replaceAltFuel (t.length + 1) t flag =
      t.take i ++ decoFor flag ++
        replaceAltFuel t.length (t.drop (i + (markerFor flag).length)) (!flag) := by
    simp only [replaceAltFuel]
    rw [h]
  unfold replaceAlt
  rw [hstep]
  exact congrArg (fun z => t.take i ++ decoFor flag ++ z)
    (replaceAltFuel_congr t.length _
      (t.drop (i + (markerFor flag).length)) (!flag) (by omega) (by omega))

/-- Conservation for a single run of the loop: output plus retained
buffer is exactly the input with the consumed markers replaced by their
decorations. -/
theorem processLoop_conserve : ∀ (n : Nat) (t : Str) (flag : Bool), t.length ≤ n →
    (processLoop t flag).1 ++ (processLoop t flag).2.1 = replaceAlt t flag := by
  intro n
  induction n with
  | zero =>
    intro t flag ht
    have ht0 : t = [] := List.eq_nil_of_length_eq_zero (by omega)
    subst ht0
    rw [processLoop_nil, replaceAlt_none (by
      have := markerFor_ne_nil flag
      simp [indexOfSub, this])]
    rfl
  | succ n ih =>
    intro t flag ht
    cases hidx : indexOfSub (markerFor flag) t with
    | some idx =>
      have hocc := indexOfSub_some_occAt hidx
      have hmpos := markerFor_length_pos flag
      rw [processLoop_found hidx, replaceAlt_found hidx]
      dsimp only
      rw [List.append_assoc]
      rw [ih (t.drop (idx + (markerFor flag).length)) (!flag)
        (by rw [List.length_drop]; omega)]
      simp [appendThinkingSegment, List.append_assoc]
    | none =>
      rw [processLoop_none hidx, replaceAlt_none hidx]
      dsimp only
      exact List.take_append_drop _ t

/-! ### Single-shot processing of a well-formed reasoning block -/

theorem markerFor_false : markerFor false = openTag := rfl

theorem markerFor_true : markerFor true = closeTag := rfl

theorem decoFor_false : decoFor false = openMd := rfl

theorem decoFor_true : decoFor true = closeMd := rfl

/-- The marker has no self-overlap: no proper nonempty suffix of it is
one of its prefixes.  This holds for both `<think>` and `</think>`. -/
def noSelfOverlap (m : Str) : Prop :=
  ∀ k < m.length, 0 < k → m.drop k ≠ m.take (m.length - k)

theorem openTag_noSelfOverlap : noSelfOverlap openTag := by
  unfold noSelfOverlap
  decide

theorem closeTag_noSelfOverlap : noSelfOverlap closeTag := by
  unfold noSelfOverlap
  decide

theorem indexOfSub_self_append {m : Str} (r : Str) (hm : m ≠ []) :
    indexOfSub m (m ++ r) = some 0 := by
  cases m with
  | nil => exact absurd rfl hm
  | cons a m' =>
    rw [List.cons_append, indexOfSub, ← List.cons_append, if_pos (List.take_left _ _)]

/-- Leftmost occurrence of a non-self-overlapping marker `m` in
`X ++ m ++ Y` when `m` does not occur in `X`: exactly at `X.length`. -/
theorem indexOfSub_sandwich {m : Str} (hns : noSelfOverlap m) (hm : m ≠ []) :
    ∀ (X Y : Str), indexOfSub m X = none →
      indexOfSub m (X ++ (m ++ Y)) = some X.length := by
  intro X
  induction X with
  | nil =>
    intro Y _
    simpa using indexOfSub_self_append Y hm
  | cons x X' ih =>
    intro Y hX
    have hmlen : 0 < m.length := List.length_pos.mpr hm
    have hX' : indexOfSub m X' = none := by
      rw [indexOfSub_eq_none_iff] at hX ⊢
      intro i hi
      exact hX (i + 1) (occAt_succ_cons.mpr hi)
    have hcond : ¬ ((x :: (X' ++ (m ++ Y))).take m.length = m) := by
      intro hc
      rw [← List.cons_append] at hc
      by_cases hlen : m.length ≤ (x :: X').length
      · rw [List.take_append_of_le_length hlen] at hc
        exact (indexOfSub_eq_none_iff m (x :: X')).mp hX 0 (occAt_zero_iff.mpr hc)
      · rw [List.take_append_eq_append_take,
          List.take_of_length_le (by omega),
          List.take_append_of_le_length (by omega)] at hc
        have hdrop : m.drop (x :: X').length =
            m.take (m.length - (x :: X').length) := by
          conv_lhs => rw [← hc]
          rw [List.drop_left]
        exact hns (x :: X').length (by omega) (by simp) hdrop
    rw [List.cons_append, indexOfSub, if_neg hcond]
    rw [ih Y hX']
    rfl

/-- Single-shot processing of `<think> ++ A ++ </think> ++ B` from the
initial mode, for `A` free of the close marker and `B` free of the open
marker: the open decoration, `A`, the close decoration, then `B` up to a
possibly retained partial open-marker suffix. -/
theorem processLoop_full_shape {A B : Str}
    (hA : indexOfSub closeTag A = none)
    (hB : indexOfSub openTag B = none) :
    processLoop (openTag ++ (A ++ (closeTag ++ B))) false =
      (openMd ++ (A ++ (closeMd ++
         B.take (B.length - getPartialSuffixLength B openTag))),
       B.drop (B.length - getPartialSuffixLength B openTag), false) := by
  have h3 : processLoop B false =
      (B.take (B.length - getPartialSuffixLength B openTag),
       B.drop (B.length - getPartialSuffixLength B openTag), false) := by
    have hBnone : indexOfSub (markerFor false) B = none := by
      rw [markerFor_false]
      exact hB
    have h := processLoop_none hBnone
    rwa [markerFor_false] at h
  have hidx2 : indexOfSub (markerFor true) (A ++ (closeTag ++ B)) = some A.length := by
    rw [markerFor_true]
    exact indexOfSub_sandwich closeTag_noSelfOverlap (by decide) A B hA
  have h2 : processLoop (A ++ (closeTag ++ B)) true =
      (A ++ (closeMd ++ B.take (B.length - getPartialSuffixLength B openTag)),
       B.drop (B.length - getPartialSuffixLength B openTag), false) := by
    rw [processLoop_found hidx2]
    have htk : (A ++ (closeTag ++ B)).take A.length = A := List.take_left _ _
    have hdr : (A ++ (closeTag ++ B)).drop (A.length + (markerFor true).length) = B := by
      rw [markerFor_true]
      rw [show (closeTag.length : Nat) = (markerFor true).length from rfl]
      rw [markerFor_true, drop_append_left, List.drop_left]
    simp only [Bool.not_true]
    rw [htk, hdr, h3]
    simp [appendThinkingSegment, decoFor_true, List.append_assoc]
  have hidx1 : indexOfSub (markerFor false) (openTag ++ (A ++ (closeTag ++ B))) =
      some 0 := by
    rw [markerFor_false]
    exact indexOfSub_self_append _ (by decide)
  rw [processLoop_found hidx1]
  have hdr1 : (openTag ++ (A ++ (closeTag ++ B))).drop (0 + (markerFor false).length) =
      A ++ (closeTag ++ B) := by
    rw [Nat.zero_add, markerFor_false, List.drop_left]
  simp only [Bool.not_false]
  rw [hdr1, h2]
  simp [appendThinkingSegment, decoFor_false, List.append_assoc]

/-! ### Claims C1, C2, C3 -/

/-- Claim C1, counterexample: with `A = "a"`, `B = "b<"` (both free of
markers) and the single-fragment split of `<think>a</think>b<`, the
concatenation of the emitted outputs is the transformed text WITHOUT the
trailing `<`, which is retained in the buffer; it differs from the
transformed result the claim predicts. -/
theorem c1_claim_false :
    ((feedFragments [openTag ++ (['a'] ++ (closeTag ++ ['b', '<']))]
        ⟨[], false⟩).1).join =
      openMd ++ (['a'] ++ (closeMd ++ ['b'])) ∧
    openMd ++ (['a'] ++ (closeMd ++ ['b'])) ≠
      openMd ++ (['a'] ++ (closeMd ++ ['b', '<'])) := by
  constructor
  · decide
  · decide

/-- Claim C1 (amended): for every text `<think> ++ A ++ </think> ++ B`
with `A` and `B` free of both markers, PROVIDED `B` does not end in a
nonempty proper prefix of the open marker, and for every way of
splitting that text into sequential fragments, the concatenation of all
emitted outputs is `openMd ++ A ++ closeMd ++ B`, and the final state is
clean (empty buffer, outside reasoning). -/
theorem c1_split_transform (cs : List Str) (A B : Str)
    (hsplit : cs.join = openTag ++ (A ++ (closeTag ++ B)))
    (hAopen : indexOfSub openTag A = none)
    (hAclose : indexOfSub closeTag A = none)
    (hBopen : indexOfSub openTag B = none)
    (hBclose : indexOfSub closeTag B = none)
    (hBtail : getPartialSuffixLength B openTag = 0) :
    ((feedFragments cs ⟨[], false⟩).1).join =
      openMd ++ (A ++ (closeMd ++ B)) ∧
    (feedFragments cs ⟨[], false⟩).2 = ⟨[], false⟩ := by
  obtain ⟨h1, h2⟩ := feedFragments_join_eq cs
  rw [hsplit, processLoop_full_shape hAclose hBopen, hBtail] at h1 h2
  constructor
  · rw [h1]
    simp
  · rw [h2]
    simp

/-- Witness for `c1_split_transform`: the text `<think>a</think>b` split
into three fragments that cut both markers in the middle. -/
theorem c1_split_transform_witness :
    ((feedFragments [['<', 't', 'h', 'i'], ['n', 'k', '>', 'a', '<', '/', 't'],
        ['h', 'i', 'n', 'k', '>', 'b']] ⟨[], false⟩).1).join =
      openMd ++ (['a'] ++ (closeMd ++ ['b'])) ∧
    (feedFragments [['<', 't', 'h', 'i'], ['n', 'k', '>', 'a', '<', '/', 't'],
        ['h', 'i', 'n', 'k', '>', 'b']] ⟨[], false⟩).2 = ⟨[], false⟩ :=
  c1_split_transform
    [['<', 't', 'h', 'i'], ['n', 'k', '>', 'a', '<', '/', 't'],
     ['h', 'i', 'n', 'k', '>', 'b']] ['a'] ['b']
    (by decide) (by decide) (by decide) (by decide) (by decide) (by decide)

/-- Claim C2, counterexample: on the input `<think><think>` the second
occurrence of the open marker is NOT consumed and replaced (it arrives
while the machine is inside the reasoning block and is emitted
verbatim), so "each occurrence of the open marker and close marker is
consumed and replaced by its decoration" fails as stated: emitted plus
retained text is `openMd ++ "<think>"`, not `openMd ++ openMd`. -/
theorem c2_claim_false :
    ((processThinkingContent (openTag ++ openTag) ⟨[], false⟩).1 ++
        ((processThinkingContent (openTag ++ openTag) ⟨[], false⟩).2).buffer =
      openMd ++ openTag) ∧
    openMd ++ openTag ≠ openMd ++ openMd := by
  constructor
  · decide
  · decide

/-- Claim C2 (amended): across every sequence of fragments, the total
text emitted plus the text retained in the final buffer equals the total
text fed in with exactly the machine-consumed marker occurrences (the
leftmost occurrence of the sought marker of the mode, alternating open/close)
replaced by their decoration strings; no other byte is duplicated or
dropped.  `replaceAlt` is that reference transform. -/
theorem c2_conservation (cs : List Str) :
    ((feedFragments cs ⟨[], false⟩).1).join ++
        ((feedFragments cs ⟨[], false⟩).2).buffer =
      replaceAlt cs.join false := by
  obtain ⟨h1, h2⟩ := feedFragments_join_eq cs
  rw [h1, h2]
  exact processLoop_conserve cs.join.length cs.join false (le_refl _)

/-- Claim C3: the refactored `processThinkingContent` (provider.ts lines
450-480) does NOT terminate on a fragment that leaves a partial marker
prefix: called with the empty initial state on the fragment `a<th`, the
loop emits `a`, retains `<th`, and then re-enters forever with the
retained suffix as the whole buffer (`getPartialSuffixLength` returns
the full buffer length, so each iteration emits nothing and leaves the
buffer unchanged).  Formally: the run is `none` for EVERY iteration
budget.  The earlier revision (lines 23-83) and the spec stop the round
here instead. -/
theorem c3_revised_loop_diverges :
    ∀ fuel : Nat,
      processThinkingContentR2 fuel ['a', '<', 't', 'h'] ⟨[], false⟩ = none := by
  have hspin : ∀ fuel, processLoopR2 fuel ['<', 't', 'h'] false = none := by
    intro fuel
    induction fuel with
    | zero => rfl
    | succ k ih =>
      have hstep : processLoopR2 (k + 1) ['<', 't', 'h'] false =
          (processLoopR2 k ['<', 't', 'h'] false).map
            (fun r => ([] ++ r.1, r.2.1, r.2.2)) := rfl
      rw [hstep, ih]
      rfl
  intro fuel
  unfold processThinkingContentR2
  cases fuel with
  | zero => rfl
  | succ k =>
    have hstep : processLoopR2 (k + 1) ([] ++ ['a', '<', 't', 'h']) false =
        (processLoopR2 k ['<', 't', 'h'] false).map
          (fun r => (['a'] ++ r.1, r.2.1, r.2.2)) := rfl
    rw [hstep, hspin k]
    rfl

/-- On the same failing input, the earlier revision of
`processThinkingContent` (lines 23-83) behaves exactly as the spec and
the claim describe: it emits `a`, retains `<th`, and stops the round. -/
theorem c3_v1_retains_and_stops :
    processThinkingContent ['a', '<', 't', 'h'] ⟨[], false⟩ =
      (['a'], ⟨['<', 't', 'h'], false⟩) := by
  decide

/-! ### Claim C9: no partial or full marker in the emitted outputs -/

theorem occAt_append_right {m X v : Str} {j : Nat} (h : occAt m v j) :
    occAt m (X ++ v) (X.length + j) := by
  obtain ⟨h1, h2⟩ := h
  refine ⟨by rw [List.length_append]; omega, ?_⟩
  rw [drop_append_left]
  exact h2

theorem occAt_of_take {m B : Str} {n i : Nat} (h : occAt m (B.take n) i) :
    occAt m B i := by
  obtain ⟨h1, h2⟩ := h
  rw [List.length_take] at h1
  have hfit : i + m.length ≤ B.length := by omega
  refine ⟨hfit, ?_⟩
  rw [List.drop_take, List.take_take, Nat.min_eq_left (by omega)] at h2
  exact h2

/-- A marker-free left part and a marker-free right part concatenate to
a marker-free string whenever the boundary cannot host a straddling
occurrence: either the last character of the left part or the first
character of the right part is not a character of the marker. -/
theorem not_occAt_append {m X Y : Str}
    (hX : ∀ i, ¬ occAt m X i) (hY : ∀ i, ¬ occAt m Y i)
    (hbd : (∀ c, X.getLast? = some c → c ∉ m) ∨
           (∀ c, Y.head? = some c → c ∉ m)) :
    ∀ i, ¬ occAt m (X ++ Y) i := by
  intro i hocc
  have hb := hocc.1
  rw [List.length_append] at hb
  by_cases hfit : i + m.length ≤ X.length
  · exact hX i (occAt_of_append_left hfit hocc)
  · by_cases hge : X.length ≤ i
    · apply hY (i - X.length)
      obtain ⟨h1, h2⟩ := hocc
      refine ⟨by rw [List.length_append] at h1; omega, ?_⟩
      rw [List.drop_append_eq_append_drop,
        List.drop_eq_nil_iff.mpr (by omega), List.nil_append] at h2
      exact h2
    · -- straddling occurrence
      obtain ⟨h1, h2⟩ := hocc
      have hiX : i < X.length := by omega
      rw [List.drop_append_eq_append_drop, Nat.sub_eq_zero_of_le (by omega),
        List.drop_zero, List.take_append_eq_append_take,
        List.take_of_length_le (by rw [List.length_drop]; omega)] at h2
      -- h2 : X.drop i ++ Y.take (m.length - (X.drop i).length) = m
      have hXd : X.drop i ≠ [] := by
        intro hnil
        have := congrArg List.length hnil
        rw [List.length_drop] at this
        simp at this
        omega
      have hYt : 0 < m.length - (X.drop i).length := by
        rw [List.length_drop]
        omega
      rcases hbd with hl | hr
      · have hlast : X.getLast? = some ((X.drop i).getLast hXd) := by
          conv_lhs => rw [← List.take_append_drop i X]
          rw [List.getLast?_append_of_ne_nil _ hXd]
          exact List.getLast?_eq_getLast _ hXd
        apply hl _ hlast
        rw [← h2]
        exact List.mem_append_left _ (List.getLast_mem hXd)
      · cases hY0 : Y with
        | nil =>
          rw [hY0] at h2
          simp only [List.take_nil, List.append_nil] at h2
          have hlen2 := congrArg List.length h2
          rw [List.length_drop] at hlen2
          omega
        | cons d Y' =>
          apply hr d (by rw [hY0]; rfl)
          rw [← h2, hY0]
          have hdmem : d ∈ (d :: Y').take (m.length - (X.drop i).length) := by
            cases hk : m.length - (X.drop i).length with
            | zero => omega
            | succ k => simp [List.take_succ_cons]
          exact List.mem_append_right _ hdmem

theorem join_mem_decomp {o : Str} : ∀ (L : List Str), o ∈ L →
    ∃ pre post, L.join = pre ++ (o ++ post) := by
  intro L
  induction L with
  | nil => intro h; simp at h
  | cons a L ih =>
    intro hmem
    rcases List.mem_cons.mp hmem with rfl | h
    · exact ⟨[], L.join, by simp⟩
    · obtain ⟨pre, post, hpp⟩ := ih h
      exact ⟨a ++ pre, post, by simp [hpp, List.append_assoc]⟩

/-- The fully transformed text contains no occurrence of a marker `m`
that is free of newlines and absent from both decorations, from `A` and
from the final segment: the decorations begin and end with newlines, so
no occurrence can straddle a boundary either. -/
theorem output_marker_free_aux {m A B' : Str}
    (hnl : ('\n' : Char) ∉ m)
    (hmd1 : indexOfSub m openMd = none)
    (hmd2 : indexOfSub m closeMd = none)
    (hA : indexOfSub m A = none)
    (hB' : ∀ i, ¬ occAt m B' i) :
    ∀ i, ¬ occAt m (openMd ++ (A ++ (closeMd ++ B'))) i := by
  have hA' := (indexOfSub_eq_none_iff m A).mp hA
  have h1 := (indexOfSub_eq_none_iff m openMd).mp hmd1
  have h2 := (indexOfSub_eq_none_iff m closeMd).mp hmd2
  have hclast : closeMd.getLast? = some '\n' := by decide
  have holast : openMd.getLast? = some '\n' := by decide
  have hinner : ∀ i, ¬ occAt m (closeMd ++ B') i :=
    not_occAt_append h2 hB' (Or.inl (by
      intro c hc
      rw [hclast] at hc
      rwa [← Option.some.inj hc]))
  have hmid : ∀ i, ¬ occAt m (A ++ (closeMd ++ B')) i :=
    not_occAt_append hA' hinner (Or.inr (by
      intro c hc
      have hhd : (closeMd ++ B').head? = some '\n' := rfl
      rw [hhd] at hc
      rwa [← Option.some.inj hc]))
  exact not_occAt_append h1 hmid (Or.inl (by
    intro c hc
    rw [holast] at hc
    rwa [← Option.some.inj hc]))

/-- Claim C9: for every split of a text `<think> ++ A ++ </think> ++ B`
(`A`, `B` free of both markers) into fragments, no emitted output of any
invocation of `processThinkingContent` contains the open or the close
marker: withheld partial markers are never emitted, and a marker cut
across fragment boundaries is consumed as a full marker, never
reproduced literally. -/
theorem c9_no_marker_in_outputs (cs : List Str) (A B : Str)
    (hsplit : cs.join = openTag ++ (A ++ (closeTag ++ B)))
    (hAopen : indexOfSub openTag A = none)
    (hAclose : indexOfSub closeTag A = none)
    (hBopen : indexOfSub openTag B = none)
    (hBclose : indexOfSub closeTag B = none) :
    ∀ o ∈ (feedFragments cs ⟨[], false⟩).1,
      indexOfSub openTag o = none ∧ indexOfSub closeTag o = none := by
  obtain ⟨h1, _⟩ := feedFragments_join_eq cs
  rw [hsplit, processLoop_full_shape hAclose hBopen] at h1
  dsimp only at h1
  have hBo' : ∀ i, ¬ occAt openTag
      (B.take (B.length - getPartialSuffixLength B openTag)) i := fun i hi =>
    (indexOfSub_eq_none_iff openTag B).mp hBopen i (occAt_of_take hi)
  have hBc' : ∀ i, ¬ occAt closeTag
      (B.take (B.length - getPartialSuffixLength B openTag)) i := fun i hi =>
    (indexOfSub_eq_none_iff closeTag B).mp hBclose i (occAt_of_take hi)
  have hWopen := output_marker_free_aux (m := openTag)
    (by decide) (by decide) (by decide) hAopen hBo'
  have hWclose := output_marker_free_aux (m := closeTag)
    (by decide) (by decide) (by decide) hAclose hBc'
  intro o ho
  obtain ⟨pre, post, hpp⟩ := join_mem_decomp _ ho
  rw [h1] at hpp
  constructor
  · rw [indexOfSub_eq_none_iff]
    intro i hi
    apply hWopen (pre.length + i)
    rw [hpp]
    exact occAt_append_right (occAt_append_left hi)
  · rw [indexOfSub_eq_none_iff]
    intro i hi
    apply hWclose (pre.length + i)
    rw [hpp]
    exact occAt_append_right (occAt_append_left hi)

/-- Witness for `c9_no_marker_in_outputs`: the text `<think>a</think>b<`
(with a trailing withheld `<`) split so that the open marker is cut
between `<thi` and `nk>`. -/
theorem c9_no_marker_in_outputs_witness :
    ((feedFragments [['<', 't', 'h', 'i'],
        ['n', 'k', '>', 'a', '<', '/', 't', 'h', 'i', 'n', 'k', '>', 'b', '<']]
        ⟨[], false⟩).1).all
      (fun o => decide (indexOfSub openTag o = none) &&
        decide (indexOfSub closeTag o = none)) = true := by
  rw [List.all_eq_true]
  intro o ho
  have h := c9_no_marker_in_outputs
    [['<', 't', 'h', 'i'],
     ['n', 'k', '>', 'a', '<', '/', 't', 'h', 'i', 'n', 'k', '>', 'b', '<']]
    ['a'] ['b', '<']
    (by decide) (by decide) (by decide) (by decide) (by decide) o ho
  simp only [h.1, h.2, decide_eq_true_eq, Bool.and_self, decide_True]

/-! ### Tool-call accumulation, the response driver, the error classifier -/

/-- A minimal model of parsed JSON values, for tool-call arguments. -/
inductive Json where
  | null
  | bool (b : Bool)
  | num (n : Int)
  | str (s : Str)
  | arr (elems : List Json)
  | obj (fields : List (Str × Json))

def lbrace : Char := Char.ofNat 123

def rbrace : Char := Char.ofNat 125

/-- The literal `"{}"` substituted for an empty argument text. -/
def emptyObjText : Str := [lbrace, rbrace]

/-- Function `parseToolArguments` (provider.ts lines 438-444).  The library
`secure-json-parse` is an external dependency; its `safeParse` is the
`parse` parameter, `none` standing for a parse failure (the library
returns `null` then).  An empty accumulated text is first replaced by
`"{}"` (`argumentsText || "{}"`); any parse result that is not a JSON
object (failure, `null`, booleans, numbers, strings, arrays — all
falsy/non-object/array values in the guard in the source) collapses to the
empty mapping. -/
def parseToolArguments (parse : Str → Option Json) (argumentsText : Str) :
    List (Str × Json) :=
  match parse (if argumentsText.isEmpty then emptyObjText else argumentsText) with
  | some (Json.obj fields) => fields
  | _ => []

/-- Structure `ToolCallBuilder` (provider.ts lines 314-318 / 125-128). -/
structure ToolCallBuilder where
  id : Str
  name : Str
  arguments : Str
  deriving DecidableEq

/-- One entry of `delta.tool_calls` (api.ts lines 49-57): positional
index plus optional id, function name and argument-text fragment.  An
absent field and an empty string are both falsy in the guards in the source,
so both are modelled as `[]`. -/
structure ToolCallDelta where
  index : Nat
  id : Str
  fname : Str
  fargs : Str
  deriving DecidableEq

/-- The builder map `Map<number, ToolCallBuilder>`, as an association
list in insertion order (JavaScript `Map` iteration order). -/
abbrev Builders := List (Nat × ToolCallBuilder)

def findBuilder : Builders → Nat → Option ToolCallBuilder
  | [], _ => none
  | (j, b) :: rest, i => if j = i then some b else findBuilder rest i

/-- Operation `builders.set(index, builder)`: overwrite in place when the key is
present (iteration order preserved), else append at the end. -/
def setBuilder : Builders → Nat → ToolCallBuilder → Builders
  | [], i, b => [(i, b)]
  | (j, old) :: rest, i, b =>
    if j = i then (j, b) :: rest else (j, old) :: setBuilder rest i b

/-- The per-fragment builder update (provider.ts lines 620-628): a
non-empty id or name overwrites the stored one, a non-empty argument
fragment is appended. -/
def applyDelta (b : ToolCallBuilder) (c : ToolCallDelta) : ToolCallBuilder :=
  ⟨if c.id = [] then b.id else c.id,
   if c.fname = [] then b.name else c.fname,
   if c.fargs = [] then b.arguments else b.arguments ++ c.fargs⟩

/-- One iteration of `collectToolCalls` (provider.ts lines 613-631):
locate or create the builder for the index of the fragment, update it, store
it back. -/
def collectOne (bs : Builders) (c : ToolCallDelta) : Builders :=
  setBuilder bs c.index (applyDelta ((findBuilder bs c.index).getD ⟨[], [], []⟩) c)

/-- Function `collectToolCalls` (provider.ts lines 605-632); on an empty or
absent fragment list it is a no-op. -/
def collectToolCalls (bs : Builders) (cs : List ToolCallDelta) : Builders :=
  cs.foldl collectOne bs

/-- A finalized tool call (`vscode.LanguageModelToolCallPart`). -/
structure ToolCallPart where
  callId : Str
  name : Str
  args : List (Str × Json)

/-- The `!builder.id || !builder.name` guard of the flush (provider.ts
lines 643-645), as the condition for a builder to be reported. -/
def builderValid (b : ToolCallBuilder) : Bool :=
  !b.id.isEmpty && !b.name.isEmpty

/-- Function `reportToolCalls` (provider.ts lines 634-657): nothing to do on an
empty builder map; otherwise emit one finalized call per builder with
both id and name set, in insertion order, then clear all builders. -/
def reportToolCalls (parse : Str → Option Json) (bs : Builders) :
    List ToolCallPart × Builders :=
  if bs.isEmpty then ([], bs)
  else
    ((bs.filter (fun p => builderValid p.2)).map
       (fun p => ⟨p.2.id, p.2.name, parseToolArguments parse p.2.arguments⟩),
     [])

/-- One output unit handed to the progress sink. -/
inductive OutPart where
  | text (s : Str)
  | tool (c : ToolCallPart)

/-- One choice of a decoded protocol chunk (api.ts lines 44-60): the
content delta (empty for absent), the tool-call fragments, and the
finish signal. -/
structure GlmChoice where
  content : Str
  toolCalls : List ToolCallDelta
  finish_reason : Option Str

structure GlmStreamChunk where
  choices : List GlmChoice

def toolCallsLit : Str := ['t', 'o', 'o', 'l', '_', 'c', 'a', 'l', 'l', 's']

structure DriverState where
  thinking : ThinkingState
  builders : Builders
  out : List OutPart

def initialDriverState : DriverState := ⟨⟨[], false⟩, [], []⟩

/-- Per-choice processing (provider.ts lines 577-583, with
`reportTextDelta` lines 589-603): route the content delta through the
marker splitter, reporting the output only when non-empty; collect the
tool-call fragments; flush the accumulator when the choice carries the
finish-reason `"tool_calls"`.  (The splitter is the terminating
revision, lines 23-83; which revision is called does not affect the
routing and flushing behaviour verified here.) -/
def stepChoice (parse : Str → Option Json) (st : DriverState) (ch : GlmChoice) :
    DriverState :=
  let st1 :=
    if ch.content = [] then st
    else
      let r := processThinkingContent ch.content st.thinking
      ⟨r.2, st.builders, st.out ++ if r.1 = [] then [] else [OutPart.text r.1]⟩
  let st2 : DriverState :=
    ⟨st1.thinking, collectToolCalls st1.builders ch.toolCalls, st1.out⟩
  if ch.finish_reason = some toolCallsLit then
    let fl := reportToolCalls parse st2.builders
    ⟨st2.thinking, fl.2, st2.out ++ fl.1.map OutPart.tool⟩
  else st2

def stepChunk (parse : Str → Option Json) (st : DriverState) (ck : GlmStreamChunk) :
    DriverState :=
  ck.choices.foldl (stepChoice parse) st

/-- The `for await` loop of `streamResponse` (provider.ts lines
572-587): before each chunk the cancellation token is consulted (its
argument is the number of chunks already processed); on cancellation the
driver returns what was emitted so far, with NO final flush; at natural
stream end (the decoded sequence is exhausted) the accumulator is
flushed once more, unconditionally. -/
def driverGo (parse : Str → Option Json) (cancelled : Nat → Bool) :
    List GlmStreamChunk → Nat → DriverState → List OutPart
  | [], _, st => st.out ++ (reportToolCalls parse st.builders).1.map OutPart.tool
  | ck :: cks, i, st =>
    if cancelled i then st.out
    else driverGo parse cancelled cks (i + 1) (stepChunk parse st ck)

/-- Function `streamResponse` (provider.ts lines 551-587), over an already
decoded chunk sequence. -/
def streamResponse (parse : Str → Option Json) (cancelled : Nat → Bool)
    (chunks : List GlmStreamChunk) : List OutPart :=
  driverGo parse cancelled chunks 0 initialDriverState

/-- Class `GlmApiError` (api.ts lines 83-92) is the transport/protocol failure
case, carrying the HTTP status code and message; any other raised value
passes through the classifier unchanged (modelled by a numeric tag). -/
inductive PipelineError where
  | glmApi (statusCode : Nat) (msg : Str)
  | other (tag : Nat)
  deriving DecidableEq

inductive RaisedError where
  | invalidKey
  | rateLimited
  | apiError (msg : Str)
  | passthrough (tag : Nat)
  deriving DecidableEq

/-- The `"GLM API error: "` message prefix (provider.ts line 673). -/
def glmApiErrorPre : Str :=
  ['G', 'L', 'M', ' ', 'A', 'P', 'I', ' ', 'e', 'r', 'r', 'o', 'r', ':', ' ']

/-- Function `throwMappedError` (provider.ts lines 659-677; the earlier revision
inlines the same logic at lines 185-199): non-`GlmApiError` failures are
re-raised unchanged; status 401 deletes the stored API key and raises
the invalid-key error; status 429 raises the rate-limit error; any other
status raises a generic error embedding the original message.  The
second component counts invocations of `authManager.deleteApiKey`
(auth.ts lines 16-18). -/
def throwMappedError : PipelineError → RaisedError × Nat
  | .glmApi statusCode msg =>
    if statusCode = 401 then (.invalidKey, 1)
    else if statusCode = 429 then (.rateLimited, 0)
    else (.apiError (glmApiErrorPre ++ msg), 0)
  | .other tag => (.passthrough tag, 0)

/-- Claim C5: for a transport/protocol failure (`GlmApiError`), status
401 invokes the delete operation of the credential store exactly once and raises the
authentication-kind error; status 429 raises the rate-limit error with
no delete; any other status raises the generic error embedding the
original message, with no delete. -/
theorem c5_error_classifier (statusCode : Nat) (msg : Str) :
    (statusCode = 401 →
      throwMappedError (.glmApi statusCode msg) = (.invalidKey, 1)) ∧
    (statusCode = 429 →
      throwMappedError (.glmApi statusCode msg) = (.rateLimited, 0)) ∧
    (statusCode ≠ 401 → statusCode ≠ 429 →
      throwMappedError (.glmApi statusCode msg) =
        (.apiError (glmApiErrorPre ++ msg), 0)) := by
  refine ⟨fun h => ?_, fun h => ?_, fun h1 h2 => ?_⟩
  · subst h
    rfl
  · subst h
    rfl
  · simp [throwMappedError, h1, h2]

/-- Witness for `c5_error_classifier` at the statuses 401, 429 and 500. -/
theorem c5_error_classifier_witness :
    throwMappedError (.glmApi 401 ['x']) = (.invalidKey, 1) ∧
    throwMappedError (.glmApi 429 ['x']) = (.rateLimited, 0) ∧
    throwMappedError (.glmApi 500 ['x']) = (.apiError (glmApiErrorPre ++ ['x']), 0) :=
  ⟨(c5_error_classifier 401 ['x']).1 rfl,
   (c5_error_classifier 429 ['x']).2.1 rfl,
   (c5_error_classifier 500 ['x']).2.2 (by decide) (by decide)⟩

/-- Claim C10: a builder whose accumulated argument text parses to a
non-object JSON value (array, number, string, boolean or null) is
flushed with the empty mapping as its argument value, and an empty
argument text is likewise finalised as the empty mapping (via the
`"{}"` fallback). -/
theorem c10_non_object_args (parse : Str → Option Json) (i : Nat)
    (b : ToolCallBuilder) (j : Json)
    (hvalid : builderValid b = true)
    (hcase :
      (b.arguments ≠ [] ∧ parse b.arguments = some j ∧ ∀ fs, j ≠ Json.obj fs) ∨
      (b.arguments = [] ∧ parse emptyObjText = some (Json.obj []))) :
    (reportToolCalls parse [(i, b)]).1 = [⟨b.id, b.name, []⟩] := by
  have hargs : parseToolArguments parse b.arguments = [] := by
    unfold parseToolArguments
    rcases hcase with ⟨hne, hp, hno⟩ | ⟨he, hp⟩
    · rw [if_neg (by simpa [List.isEmpty_iff] using hne), hp]
      cases j with
      | obj fs => exact absurd rfl (hno fs)
      | null => rfl
      | bool v => rfl
      | num v => rfl
      | str v => rfl
      | arr v => rfl
    · rw [if_pos (by simp [he]), hp]
  unfold reportToolCalls
  rw [if_neg (by simp)]
  simp [hvalid, hargs]

/-- Witness for `c10_non_object_args`: argument text `"1"` parsing to
the JSON number 1. -/
theorem c10_non_object_args_witness :
    (reportToolCalls
        (fun s => if s = ['1'] then some (Json.num 1) else none)
        [(0, ⟨['i'], ['n'], ['1']⟩)]).1 = [⟨['i'], ['n'], []⟩] := by
  have h := c10_non_object_args
    (fun s => if s = ['1'] then some (Json.num 1) else none) 0
    ⟨['i'], ['n'], ['1']⟩ (Json.num 1) (by decide)
    (Or.inl ⟨by decide, rfl, fun fs h => Json.noConfusion h⟩)
  exact h

theorem driverGo_no_cancel (parse : Str → Option Json) :
    ∀ (cks : List GlmStreamChunk) (i : Nat) (st : DriverState),
      driverGo parse (fun _ => false) cks i st =
        (cks.foldl (stepChunk parse) st).out ++
          (reportToolCalls parse
            ((cks.foldl (stepChunk parse) st).builders)).1.map OutPart.tool := by
  intro cks
  induction cks with
  | nil => intro i st; rfl
  | cons ck cks ih =>
    intro i st
    simp only [driverGo, Bool.false_eq_true, if_false, List.foldl_cons]
    exact ih (i + 1) (stepChunk parse st ck)

/-- Claim C4: at natural stream end the driver flushes the accumulator
unconditionally — every builder with both identifier and name set whose
choice never carried the finish-reason `"tool_calls"` is still emitted
as a finalized tool call — and a second flush on the already-cleared
builder set emits nothing. -/
theorem c4_final_flush (parse : Str → Option Json) (chunks : List GlmStreamChunk)
    (hnofinish : ∀ ck ∈ chunks, ∀ ch ∈ ck.choices,
      ch.finish_reason ≠ some toolCallsLit) :
    (∀ i b,
      (i, b) ∈ (chunks.foldl (stepChunk parse) initialDriverState).builders →
      builderValid b = true →
      OutPart.tool ⟨b.id, b.name, parseToolArguments parse b.arguments⟩ ∈
        streamResponse parse (fun _ => false) chunks) ∧
    (∀ bs : Builders,
      (reportToolCalls parse ((reportToolCalls parse bs).2)).1 = []) := by
  constructor
  · intro i b hmem hvalid
    unfold streamResponse
    rw [driverGo_no_cancel]
    apply List.mem_append_right
    have hne : (chunks.foldl (stepChunk parse) initialDriverState).builders ≠ [] := by
      intro h0
      rw [h0] at hmem
      simp at hmem
    unfold reportToolCalls
    rw [if_neg (by simpa [List.isEmpty_iff] using hne)]
    refine List.mem_map.mpr
      ⟨⟨b.id, b.name, parseToolArguments parse b.arguments⟩, ?_, rfl⟩
    exact List.mem_map.mpr
      ⟨(i, b), List.mem_filter.mpr ⟨hmem, hvalid⟩, rfl⟩
  · intro bs
    unfold reportToolCalls
    by_cases h : bs.isEmpty
    · rw [if_pos h]
      simp [List.isEmpty_iff.mp h]
    · rw [if_neg h]
      rfl

/-- Witness for `c4_final_flush`: one chunk carrying a complete
tool-call fragment and no finish signal. -/
theorem c4_final_flush_witness :
    (∀ i b,
      (i, b) ∈ ([⟨[⟨[], [⟨0, ['i'], ['n'], []⟩], none⟩]⟩].foldl
        (stepChunk (fun _ => none)) initialDriverState).builders →
      builderValid b = true →
      OutPart.tool ⟨b.id, b.name, parseToolArguments (fun _ => none) b.arguments⟩ ∈
        streamResponse (fun _ => none) (fun _ => false)
          [⟨[⟨[], [⟨0, ['i'], ['n'], []⟩], none⟩]⟩]) ∧
    (∀ bs : Builders,
      (reportToolCalls (fun _ => none) ((reportToolCalls (fun _ => none) bs).2)).1 = []) :=
  c4_final_flush (fun _ => none) [⟨[⟨[], [⟨0, ['i'], ['n'], []⟩], none⟩]⟩]
    (by
      intro ck hck ch hch
      simp only [List.mem_singleton] at hck
      subst hck
      simp only [List.mem_singleton] at hch
      subst hch
      decide)

theorem driverGo_cancel_at (parse : Str → Option Json) (k : Nat) :
    ∀ (cks : List GlmStreamChunk) (st : DriverState) (i : Nat), i ≤ k →
      k < i + cks.length →
      driverGo parse (fun j => decide (k ≤ j)) cks i st =
        ((cks.take (k - i)).foldl (stepChunk parse) st).out := by
  intro cks
  induction cks with
  | nil =>
    intro st i h1 h2
    simp only [List.length_nil] at h2
    omega
  | cons ck cks ih =>
    intro st i h1 h2
    by_cases hik : i = k
    · subst hik
      simp only [driverGo]
      rw [if_pos (by simp)]
      rw [Nat.sub_self]
      rfl
    · have hlt : i < k := by omega
      simp only [driverGo]
      rw [if_neg (by simp; omega)]
      rw [ih (stepChunk parse st ck) (i + 1) (by omega)
        (by simp only [List.length_cons] at h2; omega)]
      have harith : k - i = (k - (i + 1)) + 1 := by omega
      rw [harith]
      rfl

/-- Claim C8: if cancellation is observed after processing the first `k`
chunks of a longer stream, the entire output of the driver is exactly what
the first `k` chunks produced: no text units and no finalized tool calls
derive from the remaining chunks, the in-flight thinking buffer and the
unflushed builders are abandoned, and the end-of-stream flush is
skipped. -/
theorem c8_cancellation (parse : Str → Option Json)
    (chunks : List GlmStreamChunk) (k : Nat) (hk : k < chunks.length) :
    streamResponse parse (fun i => decide (k ≤ i)) chunks =
      ((chunks.take k).foldl (stepChunk parse) initialDriverState).out := by
  unfold streamResponse
  rw [driverGo_cancel_at parse k chunks initialDriverState 0 (by omega) (by omega)]
  rw [Nat.sub_zero]

/-- Witness for `c8_cancellation`: a five-chunk stream of text deltas
with cancellation observed after the second chunk. -/
theorem c8_cancellation_witness :
    streamResponse (fun _ => none) (fun i => decide (2 ≤ i))
      [⟨[⟨['a'], [], none⟩]⟩, ⟨[⟨['b'], [], none⟩]⟩, ⟨[⟨['c'], [], none⟩]⟩,
       ⟨[⟨['d'], [], none⟩]⟩, ⟨[⟨['e'], [], none⟩]⟩] =
      (([⟨[⟨['a'], [], none⟩]⟩, ⟨[⟨['b'], [], none⟩]⟩,
         ⟨[⟨['c'], [], none⟩]⟩, ⟨[⟨['d'], [], none⟩]⟩,
         ⟨[⟨['e'], [], none⟩]⟩].take 2).foldl
        (stepChunk (fun _ => none)) initialDriverState).out :=
  c8_cancellation (fun _ => none)
    [⟨[⟨['a'], [], none⟩]⟩, ⟨[⟨['b'], [], none⟩]⟩, ⟨[⟨['c'], [], none⟩]⟩,
     ⟨[⟨['d'], [], none⟩]⟩, ⟨[⟨['e'], [], none⟩]⟩] 2 (by simp)

/-! ### Claim C6: interleaved tool-call fragments -/

/-- View of the (at most one) entry a well-formed builder map holds for
a given index. -/
def builderView (i : Nat) : Option ToolCallBuilder → Builders
  | none => []
  | some b => [(i, b)]

theorem findBuilder_of_filter {i : Nat} :
    ∀ {bs : Builders} {ob : Option ToolCallBuilder},
      bs.filter (fun p => p.1 == i) = builderView i ob →
      findBuilder bs i = ob := by
  intro bs
  induction bs with
  | nil =>
    intro ob h
    cases ob with
    | none => rfl
    | some b => simp [builderView] at h
  | cons p rest ih =>
    intro ob h
    obtain ⟨j, old⟩ := p
    by_cases hj : j = i
    · subst hj
      rw [List.filter_cons_of_pos (by simp)] at h
      cases ob with
      | none => simp [builderView] at h
      | some b =>
        simp only [builderView, List.cons.injEq] at h
        obtain ⟨h1, _⟩ := h
        unfold findBuilder
        rw [if_pos rfl]
        rw [(Prod.mk.injEq _ _ _ _).mp h1 |>.2]
    · rw [List.filter_cons_of_neg (by simp [hj])] at h
      unfold findBuilder
      rw [if_neg hj]
      exact ih h

theorem setBuilder_filter_self {i : Nat} (b : ToolCallBuilder) :
    ∀ (bs : Builders) (ob : Option ToolCallBuilder),
      bs.filter (fun p => p.1 == i) = builderView i ob →
      (setBuilder bs i b).filter (fun p => p.1 == i) = [(i, b)] := by
  intro bs
  induction bs with
  | nil =>
    intro ob _
    simp [setBuilder]
  | cons p rest ih =>
    intro ob h
    obtain ⟨j, old⟩ := p
    by_cases hj : j = i
    · subst hj
      rw [List.filter_cons_of_pos (by simp)] at h
      unfold setBuilder
      rw [if_pos rfl, List.filter_cons_of_pos (by simp)]
      cases ob with
      | none => simp [builderView] at h
      | some b0 =>
        simp only [builderView, List.cons.injEq] at h
        rw [h.2]
    · rw [List.filter_cons_of_neg (by simp [hj])] at h
      unfold setBuilder
      rw [if_neg hj, List.filter_cons_of_neg (by simp [hj])]
      exact ih ob h

theorem setBuilder_filter_other {i j : Nat} (hne : j ≠ i) (b : ToolCallBuilder) :
    ∀ bs : Builders,
      (setBuilder bs j b).filter (fun p => p.1 == i) =
        bs.filter (fun p => p.1 == i) := by
  intro bs
  induction bs with
  | nil => simp [setBuilder, hne]
  | cons p rest ih =>
    obtain ⟨jk, old⟩ := p
    unfold setBuilder
    by_cases hjk : jk = j
    · subst hjk
      rw [if_pos rfl]
      by_cases hi : jk = i
      · omega
      · rw [List.filter_cons_of_neg (by simp [hi]),
          List.filter_cons_of_neg (by simp [hi])]
    · rw [if_neg hjk]
      by_cases hi : jk = i
      · subst hi
        rw [List.filter_cons_of_pos (by simp), List.filter_cons_of_pos (by simp)]
        rw [ih]
      · rw [List.filter_cons_of_neg (by simp [hi]),
          List.filter_cons_of_neg (by simp [hi])]
        exact ih

/-- The entry a builder map holds for index `i` after collecting a
fragment list depends only on the fragments with that index. -/
theorem collectToolCalls_filter (i : Nat) :
    ∀ (cs : List ToolCallDelta) (bs : Builders) (ob : Option ToolCallBuilder),
      bs.filter (fun p => p.1 == i) = builderView i ob →
      (collectToolCalls bs cs).filter (fun p => p.1 == i) =
        builderView i (cs.foldl
          (fun acc c =>
            if c.index == i then some (applyDelta (acc.getD ⟨[], [], []⟩) c)
            else acc) ob) := by
  intro cs
  induction cs with
  | nil =>
    intro bs ob h
    exact h
  | cons c cs ih =>
    intro bs ob h
    show (collectToolCalls (collectOne bs c) cs).filter _ = _
    by_cases hc : c.index = i
    · have hfb : findBuilder bs c.index = ob := by
        rw [hc]
        exact findBuilder_of_filter h
      have hco : collectOne bs c =
          setBuilder bs i (applyDelta (ob.getD ⟨[], [], []⟩) c) := by
        unfold collectOne
        rw [hfb, hc]
      rw [hco]
      have hset := setBuilder_filter_self
        (applyDelta (ob.getD ⟨[], [], []⟩) c) bs ob h
      simp only [List.foldl_cons]
      rw [if_pos (by simp [hc])]
      exact ih (setBuilder bs i (applyDelta (ob.getD ⟨[], [], []⟩) c))
        (some (applyDelta (ob.getD ⟨[], [], []⟩) c)) hset
    · have hco : (collectOne bs c).filter (fun p => p.1 == i) =
          builderView i ob := by
        unfold collectOne
        rw [setBuilder_filter_other hc _ bs]
        exact h
      simp only [List.foldl_cons]
      rw [if_neg (by simp [hc])]
      exact ih (collectOne bs c) ob hco

theorem foldl_filter_skip {α β : Type} (p : β → Bool) (f : α → β → α) :
    ∀ (cs : List β) (a : α),
      cs.foldl (fun acc c => if p c then f acc c else acc) a =
        (cs.filter p).foldl f a := by
  intro cs
  induction cs with
  | nil => intro a; rfl
  | cons c cs ih =>
    intro a
    by_cases hc : p c
    · rw [List.filter_cons_of_pos hc]
      simp only [List.foldl_cons, if_pos hc]
      exact ih (f a c)
    · rw [List.filter_cons_of_neg (by simp [hc])]
      simp only [List.foldl_cons, if_neg hc]
      exact ih a

/-- Claim C6: whenever the index-0 subsequence of the fragment stream is
exactly the three argument pieces `{"a":`, `1`, `}` (with a non-empty
identifier and name arriving on the first piece), the builder map built
from scratch holds exactly one entry for index 0, whose argument text is
the reassembled `{"a":1}`, and the flush after a finish signal emits the
finalized call with the parsed argument mapping — independent of how
index-1 fragments are interleaved. -/
theorem c6_interleaving (cs : List ToolCallDelta) (i0 n0 : Str)
    (parse : Str → Option Json)
    (hid : i0 ≠ []) (hname : n0 ≠ [])
    (hfilter : cs.filter (fun c => c.index == 0) =
      [⟨0, i0, n0, [lbrace, '"', 'a', '"', ':']⟩,
       ⟨0, [], [], ['1']⟩, ⟨0, [], [], [rbrace]⟩])
    (hparse : parse [lbrace, '"', 'a', '"', ':', '1', rbrace] =
      some (Json.obj [(['a'], Json.num 1)])) :
    (collectToolCalls [] cs).filter (fun p => p.1 == 0) =
      [(0, ⟨i0, n0, [lbrace, '"', 'a', '"', ':', '1', rbrace]⟩)] ∧
    (⟨i0, n0, [(['a'], Json.num 1)]⟩ : ToolCallPart) ∈
      (reportToolCalls parse (collectToolCalls [] cs)).1 := by
  have hcf := collectToolCalls_filter 0 cs [] none rfl
  rw [foldl_filter_skip (fun c => c.index == 0)
    (fun acc c => some (applyDelta (acc.getD ⟨[], [], []⟩) c)) cs none] at hcf
  rw [hfilter] at hcf
  have hfold :
      ([⟨0, i0, n0, [lbrace, '"', 'a', '"', ':']⟩,
        ⟨0, [], [], ['1']⟩, ⟨0, [], [], [rbrace]⟩] : List ToolCallDelta).foldl
        (fun acc c => some (applyDelta (acc.getD ⟨[], [], []⟩) c)) none =
      some ⟨i0, n0, [lbrace, '"', 'a', '"', ':', '1', rbrace]⟩ := by
    simp only [List.foldl_cons, List.foldl_nil, Option.getD_some, Option.getD_none]
    unfold applyDelta
    simp [hid, hname]
  rw [hfold] at hcf
  refine ⟨hcf, ?_⟩
  have hmem : (0, (⟨i0, n0, [lbrace, '"', 'a', '"', ':', '1', rbrace]⟩ :
      ToolCallBuilder)) ∈ collectToolCalls [] cs := by
    apply List.mem_of_mem_filter (p := fun p => p.1 == 0)
    rw [hcf]
    exact List.mem_singleton_self _
  have hne : collectToolCalls [] cs ≠ [] := by
    intro h0
    rw [h0] at hmem
    simp at hmem
  unfold reportToolCalls
  rw [if_neg (by simpa [List.isEmpty_iff] using hne)]
  refine List.mem_map.mpr
    ⟨(0, ⟨i0, n0, [lbrace, '"', 'a', '"', ':', '1', rbrace]⟩),
     List.mem_filter.mpr ⟨hmem, ?_⟩, ?_⟩
  · simp only [builderValid]
    rw [Bool.and_eq_true, Bool.not_eq_true']
    constructor
    · simpa [List.isEmpty_iff] using hid
    · simpa [List.isEmpty_iff] using hname
  · show (⟨i0, n0, parseToolArguments parse _⟩ : ToolCallPart) = _
    unfold parseToolArguments
    rw [if_neg (by simp), hparse]

/-- Witness for `c6_interleaving`: index-0 pieces interleaved with two
index-1 fragments. -/
theorem c6_interleaving_witness :
    (collectToolCalls []
        [⟨0, ['i'], ['f'], [lbrace, '"', 'a', '"', ':']⟩,
         ⟨1, ['j'], ['g'], ['2']⟩,
         ⟨0, [], [], ['1']⟩,
         ⟨1, [], [], ['3']⟩,
         ⟨0, [], [], [rbrace]⟩]).filter (fun p => p.1 == 0) =
      [(0, ⟨['i'], ['f'], [lbrace, '"', 'a', '"', ':', '1', rbrace]⟩)] ∧
    (⟨['i'], ['f'], [(['a'], Json.num 1)]⟩ : ToolCallPart) ∈
      (reportToolCalls
        (fun s => if s = [lbrace, '"', 'a', '"', ':', '1', rbrace]
          then some (Json.obj [(['a'], Json.num 1)]) else none)
        (collectToolCalls []
          [⟨0, ['i'], ['f'], [lbrace, '"', 'a', '"', ':']⟩,
           ⟨1, ['j'], ['g'], ['2']⟩,
           ⟨0, [], [], ['1']⟩,
           ⟨1, [], [], ['3']⟩,
           ⟨0, [], [], [rbrace]⟩])).1 :=
  c6_interleaving
    [⟨0, ['i'], ['f'], [lbrace, '"', 'a', '"', ':']⟩,
     ⟨1, ['j'], ['g'], ['2']⟩,
     ⟨0, [], [], ['1']⟩,
     ⟨1, [], [], ['3']⟩,
     ⟨0, [], [], [rbrace]⟩]
    ['i'] ['f']
    (fun s => if s = [lbrace, '"', 'a', '"', ':', '1', rbrace]
      then some (Json.obj [(['a'], Json.num 1)]) else none)
    (by decide) (by decide) (by decide) (by simp)

/-! ### Claim C7: the SSE stream decoder -/

/-- JavaScript string whitespace, restricted to the ASCII whitespace
characters that can occur in an SSE stream. -/
def isWsChar (c : Char) : Bool :=
  c == ' ' || c == '\n' || c == '\t' || c == '\r'

def trimStart (s : Str) : Str := s.dropWhile isWsChar

def trimEnd (s : Str) : Str := (s.reverse.dropWhile isWsChar).reverse

/-- JavaScript `line.trim()`. -/
def strTrim (s : Str) : Str := trimEnd (trimStart s)

theorem trimStart_length_le (s : Str) : (trimStart s).length ≤ s.length :=
  (List.dropWhile_suffix _).length_le

theorem trimEnd_length_le (s : Str) : (trimEnd s).length ≤ s.length := by
  unfold trimEnd
  rw [List.length_reverse]
  have h := (List.dropWhile_suffix (l := s.reverse) isWsChar).length_le
  rwa [List.length_reverse] at h

theorem strTrim_fix {s : Str} (h : strTrim s = s) :
    trimStart s = s ∧ trimEnd s = s := by
  have hlen := congrArg List.length h
  have h2 := trimEnd_length_le (trimStart s)
  have h3 := trimStart_length_le s
  have h1 : (trimStart s).length = s.length := by
    unfold strTrim at hlen
    omega
  have hts : trimStart s = s :=
    List.IsSuffix.eq_of_length (List.dropWhile_suffix _) h1
  unfold strTrim at h
  rw [hts] at h
  exact ⟨hts, h⟩

theorem trimStart_cons_not_ws {c : Char} {l : Str} (h : isWsChar c = false) :
    trimStart (c :: l) = c :: l := by
  unfold trimStart
  rw [List.dropWhile_cons, if_neg (by simp [h])]

theorem trimEnd_append {X d : Str} (hd : trimEnd d = d) (hne : d ≠ []) :
    trimEnd (X ++ d) = X ++ d := by
  have hrev : d.reverse.dropWhile isWsChar = d.reverse := by
    have h := congrArg List.reverse hd
    unfold trimEnd at h
    rwa [List.reverse_reverse] at h
  cases hdr : d.reverse with
  | nil => exact absurd (by rwa [List.reverse_eq_nil_iff] at hdr) hne
  | cons c t =>
    have hc : isWsChar c = false := by
      rw [hdr, List.dropWhile_cons] at hrev
      by_cases hcc : isWsChar c
      · rw [if_pos (by simp [hcc])] at hrev
        have hl := congrArg List.length hrev
        have hle := (List.dropWhile_suffix (l := t) isWsChar).length_le
        simp at hl
        omega
      · simpa using hcc
    have step : (X ++ d).reverse.dropWhile isWsChar = d.reverse ++ X.reverse := by
      rw [List.reverse_append, hdr, List.cons_append, List.dropWhile_cons,
        if_neg (by simp [hc]), ← List.cons_append, ← hdr]
    unfold trimEnd
    rw [step, ← List.reverse_append, List.reverse_reverse]

/-- JavaScript `buffer.split("\n")` (single-character separator). -/
def splitNl : Str → List Str
  | [] => [[]]
  | c :: rest =>
    if c = '\n' then [] :: splitNl rest
    else
      match splitNl rest with
      | [] => [[c]]
      | l :: ls => (c :: l) :: ls

theorem splitNl_append_nl {X : Str} (hX : ('\n' : Char) ∉ X) (r : Str) :
    splitNl (X ++ '\n' :: r) = X :: splitNl r := by
  induction X with
  | nil => simp [splitNl]
  | cons c X' ih =>
    have hc : ¬ (c = '\n') := fun h => hX (h ▸ List.mem_cons_self c X')
    have hX' : ('\n' : Char) ∉ X' := fun h => hX (List.mem_cons_of_mem _ h)
    rw [List.cons_append]
    simp only [splitNl]
    rw [if_neg hc, ih hX']

def dataPre : Str := ['d', 'a', 't', 'a', ':']

def doneLit : Str := ['[', 'D', 'O', 'N', 'E', ']']

inductive DecodeStep (α : Type) where
  | skip
  | done
  | yield (c : α)

/-- Per-line handling of the SSE decoder (api.ts lines 163-176): trim
the line; skip blank lines and lines not starting with `data:`; strip
the prefix and trim the payload; stop at the `[DONE]` sentinel;
otherwise parse the payload (`JSON.parse` is an external primitive,
modelled by `parseChunk` with `none` for a parse error), yielding the
chunk on success and silently skipping the record on failure. -/
def processLine {α : Type} (parseChunk : Str → Option α) (line : Str) :
    DecodeStep α :=
  let trimmed := strTrim line
  if trimmed = [] then .skip
  else if trimmed.take 5 = dataPre then
    let data := strTrim (trimmed.drop 5)
    if data = doneLit then .done
    else
      match parseChunk data with
      | some c => .yield c
      | none => .skip
  else .skip

def processLines {α : Type} (parseChunk : Str → Option α) :
    List Str → List α × Bool
  | [] => ([], false)
  | l :: ls =>
    match processLine parseChunk l with
    | .done => ([], true)
    | .skip => processLines parseChunk ls
    | .yield c =>
      let r := processLines parseChunk ls
      (c :: r.1, r.2)

/-- The read loop of `GlmApiClient.streamChat` (api.ts lines 149-181):
append each transport read to the carry buffer, split on newlines, hold
back the final (possibly incomplete) segment as the new carry, process
the complete lines in order, and stop the whole sequence at the `[DONE]`
sentinel; at source exhaustion the held-back carry is discarded. -/
def streamChatDecode {α : Type} (parseChunk : Str → Option α) :
    List Str → Str → List α
  | [], _ => []
  | v :: vs, buf =>
    let lines := splitNl (buf ++ v)
    let r := processLines parseChunk lines.dropLast
    if r.2 then r.1
    else r.1 ++ streamChatDecode parseChunk vs (lines.getLastD [])

theorem processLine_data {α : Type} (parseChunk : Str → Option α) {d : Str}
    (ht : strTrim d = d) (hne : d ≠ []) :
    processLine parseChunk (dataPre ++ d) =
      (if d = doneLit then DecodeStep.done
       else
        match parseChunk d with
        | some c => DecodeStep.yield c
        | none => DecodeStep.skip) := by
  obtain ⟨hts, hte⟩ := strTrim_fix ht
  have h1 : trimStart (dataPre ++ d) = dataPre ++ d :=
    trimStart_cons_not_ws (by decide)
  have htrim : strTrim (dataPre ++ d) = dataPre ++ d := by
    unfold strTrim
    rw [h1]
    exact trimEnd_append hte hne
  simp only [processLine]
  rw [htrim]
  rw [if_neg (by simp [dataPre]),
    if_pos (show List.take 5 (dataPre ++ d) = dataPre from List.take_left' rfl),
    show List.drop 5 (dataPre ++ d) = d from List.drop_left' rfl, ht]

/-- Claim C7: a `data:` record whose payload fails to parse, placed
between two well-formed `data:` records, is silently discarded: the
decoder yields exactly the two well-formed chunks, in order, and the
sequence neither errors nor ends early. -/
theorem c7_malformed_record_skipped {α : Type} (parseChunk : Str → Option α)
    (d1 dm d2 : Str) (c1 c2 : α)
    (h1t : strTrim d1 = d1) (hmt : strTrim dm = dm) (h2t : strTrim d2 = d2)
    (h1n : d1 ≠ []) (hmn : dm ≠ []) (h2n : d2 ≠ [])
    (h1nl : ('\n' : Char) ∉ d1) (hmnl : ('\n' : Char) ∉ dm)
    (h2nl : ('\n' : Char) ∉ d2)
    (h1d : d1 ≠ doneLit) (hmd : dm ≠ doneLit) (h2d : d2 ≠ doneLit)
    (hp1 : parseChunk d1 = some c1) (hpm : parseChunk dm = none)
    (hp2 : parseChunk d2 = some c2) :
    streamChatDecode parseChunk
      [(dataPre ++ d1) ++ ('\n' ::
         ((dataPre ++ dm) ++ ('\n' :: ((dataPre ++ d2) ++ ['\n']))))] [] =
      [c1, c2] := by
  have hnl : ∀ {d : Str}, ('\n' : Char) ∉ d → ('\n' : Char) ∉ dataPre ++ d := by
    intro d hd h
    rcases List.mem_append.mp h with h | h
    · exact absurd h (by decide)
    · exact hd h
  have hsplit : splitNl ((dataPre ++ d1) ++ ('\n' ::
      ((dataPre ++ dm) ++ ('\n' :: ((dataPre ++ d2) ++ ['\n']))))) =
      [dataPre ++ d1, dataPre ++ dm, dataPre ++ d2, []] := by
    rw [splitNl_append_nl (hnl h1nl), splitNl_append_nl (hnl hmnl),
      show (dataPre ++ d2) ++ ['\n'] = (dataPre ++ d2) ++ '\n' :: [] from rfl,
      splitNl_append_nl (hnl h2nl)]
    rfl
  simp only [streamChatDecode, List.nil_append]
  rw [hsplit]
  have hdl : ([dataPre ++ d1, dataPre ++ dm, dataPre ++ d2, []] :
      List Str).dropLast = [dataPre ++ d1, dataPre ++ dm, dataPre ++ d2] := rfl
  rw [hdl]
  have hlines : processLines parseChunk
      [dataPre ++ d1, dataPre ++ dm, dataPre ++ d2] = ([c1, c2], false) := by
    simp only [processLines]
    rw [processLine_data parseChunk h1t h1n, if_neg h1d, hp1,
      processLine_data parseChunk hmt hmn, if_neg hmd, hpm,
      processLine_data parseChunk h2t h2n, if_neg h2d, hp2]
  rw [hlines]
  rfl

/-- Witness for `c7_malformed_record_skipped`: payloads `a` (parses to
1), `x` (malformed) and `b` (parses to 2). -/
theorem c7_malformed_record_skipped_witness :
    streamChatDecode
      (fun s => if s = ['a'] then some 1 else if s = ['b'] then some 2
        else (none : Option Nat))
      [(dataPre ++ ['a']) ++ ('\n' ::
         ((dataPre ++ ['x']) ++ ('\n' :: ((dataPre ++ ['b']) ++ ['\n']))))] [] =
      [1, 2] :=
  c7_malformed_record_skipped
    (fun s => if s = ['a'] then some 1 else if s = ['b'] then some 2
      else (none : Option Nat))
    ['a'] ['x'] ['b'] 1 2
    (by decide) (by decide) (by decide)
    (by decide) (by decide) (by decide)
    (by decide) (by decide) (by decide)
    (by decide) (by decide) (by decide)
    (by decide) (by decide) (by decide)
